import Mathlib

/-!
# Verification of the pygeonlp geoparsing core

Shallow embedding of the parts of `pygeonlp.api` that the claims touch:
the node / lattice data model (`pygeonlp/api/node.py`), the filter stack
(`filter.py`, `temporal_filter.py`), the default scorer (`scoring.py`),
the path enumerator and ranker (`linker.py`) and the parser's address
detection and lattice chunking (`parser.py`).

Modelling conventions:
* Python dicts holding morpheme attributes are modelled as a record of the
  keys the embedded code reads or writes.
* `datetime.date` values are modelled as integers (`PyDate`); only their
  linear order is used by the code.
* The WGS84 geodesic distance (the external `geographiclib` call in
  `Node.distance`) is a parameter `dist : PNode → PNode → Option ℚ` of the
  scoring functions; `none` models the `RuntimeError` raised for nodes
  without a point (caught and ignored in `node_relation_score`).
* Python `set(...)` values are modelled as deduplicated lists (`pySet`);
  only membership and extensional content are used.
-/

namespace PyGeoNLP

/-- The fields of a morpheme dict that the embedded code reads or writes
(`pos`, `subclass1..3`, `conjugated_form`, `conjugation_type`, `surface`). -/
structure Morpheme where
  surface : String
  pos : String
  subclass1 : String
  subclass2 : String
  subclass3 : String
  conjugated_form : String
  conjugation_type : String
  deriving DecidableEq, Repr

/-- `Node.morphemes` in the source is a single morpheme dict for
NORMAL/GEOWORD nodes and a list (one entry per covered lattice position)
for ADDRESS nodes; the embedded code only tests `isinstance(·, list)` and
takes `len(·)` of the list form, never reading the inner dicts' content. -/
inductive Morphs where
  | one (m : Morpheme)
  | many (ms : List Morpheme)
  deriving DecidableEq, Repr

/-- Python dates, modelled by their ordinal. -/
abbrev PyDate := Int

/-- The fields of a geoword / address `prop` dict that the embedded code
reads.  `prefixes`/`suffixes` model the optional `prefix`/`suffix` keys
(`prop.get('prefix', None)`: both a missing key and an empty list are falsy,
so an absent key is modelled by `[]`).  `ne_class` and the temporal keys are
optional; `valid_from`/`valid_to` hold the already-parsed date
(`get_date_from_isostr` maps a missing or empty value to `None`). -/
structure GeoProp where
  geolod_id : String
  body : String
  prefixes : List String
  suffixes : List String
  ne_class : Option String
  hypernym : List String
  valid_from : Option PyDate
  valid_to : Option PyDate
  deriving DecidableEq, Repr

/-- `Node.IGNORE/NORMAL/GEOWORD/ADDRESS` constants from `node.py`. -/
def NORMAL : Int := 0
def GEOWORD : Int := 1
def ADDRESS : Int := 2

/-- A lattice node (`pygeonlp.api.node.Node`).  `geometry` carries the point
coordinates (lon, lat) when present. -/
structure PNode where
  surface : String
  node_type : Int
  morphemes : Morphs
  geometry : Option (ℚ × ℚ) := none
  prop : Option GeoProp := none
  deriving DecidableEq, Repr

/-- A lattice: one candidate list per morpheme position. -/
abbrev Lattice := List (List PNode)

/-- Python `set` of strings, modelled as the deduplicated element list. -/
def pySet (l : List String) : List String := l.dedup

/-- Python `set(s)` on a string: the set of its characters (one-character
strings).  This is what `set(self.surface,)` in `Node.get_notations`
evaluates to — the trailing comma inside the call does not build a tuple. -/
def pySetOfChars (s : String) : List String :=
  pySet (s.data.map (fun c => String.mk [c]))

/-- `Node.get_notations` (node.py, lines 221-263), without the `_attr`
memoization (which only caches the pure result).  For a non-GEOWORD node the
source computes `set(self.surface,)` = the character set of the surface; for
a GEOWORD node it collects `body`, `prefix+body`, `body+suffix` and
`prefix+body+suffix` over all listed prefixes and suffixes.  A GEOWORD node
always carries a `prop` in the data model; the `none` branch totalizes the
attribute access. -/
def get_notations (nd : PNode) : List String :=
  if nd.node_type ≠ GEOWORD then
    pySetOfChars nd.surface
  else
    match nd.prop with
    | none => []
    | some p =>
      let body := p.body
      let cands := [body]
        ++ p.prefixes.map (fun pre => pre ++ body)
        ++ p.suffixes.map (fun suf => body ++ suf)
        ++ (if p.prefixes ≠ [] ∧ p.suffixes ≠ [] then
              p.prefixes.flatMap (fun pre => p.suffixes.map (fun suf => pre ++ body ++ suf))
            else [])
      pySet cands

/-! ## Filter base class (`pygeonlp/api/filter.py`) -/

/-- The `when_all_failed` policy of a filter. -/
inductive WAF where
  | return_all
  | convert_to_normal
  deriving DecidableEq, Repr

/-- `Filter.apply_filter` (filter.py, lines 108-160).  `ff` is the filter's
`filter_func`, `dflt` the optional `default` geolod_id.  Nodes passing the
filter are kept in order; the node whose `geolod_id` equals `dflt` (first
such, while no top candidate is chosen yet) is moved to the front. -/
def apply_filter (ff : PNode → Bool) (dflt : Option String) (candidates : List PNode) :
    List PNode :=
  let step := fun (st : Option PNode × List PNode) (cand : PNode) =>
    if ff cand then
      match cand.prop with
      | none => (st.1, st.2 ++ [cand])
      | some p =>
        if st.1 = none ∧ dflt = some p.geolod_id then
          (some cand, st.2)
        else
          (st.1, st.2 ++ [cand])
    else st
  let st := candidates.foldl step (none, [])
  match st.1 with
  | some top => top :: st.2
  | none => st.2

/-- The morpheme update performed when `Filter.apply` synthesizes a
`名詞・固有名詞・地域・一般` node (filter.py, lines 90-97):
`new_node.morphemes.update({...})`.  The source calls `dict.update` on the
(shared) morpheme dict; an ADDRESS-style morpheme list would raise
`AttributeError` in Python and is outside the modelled behaviour. -/
def convertMorphUpdate : Morphs → Morphs
  | Morphs.one m =>
    Morphs.one { m with
      conjugated_form := "*", conjugation_type := "*", pos := "名詞",
      subclass1 := "固有名詞", subclass2 := "地域", subclass3 := "一般" }
  | Morphs.many ms => Morphs.many ms

/-- One position of `Filter.apply` (filter.py, lines 63-106), in
state-passing style: the result is `(candidates', output)` where
`candidates'` is the input candidate list *after* the call (Python mutates
it through the shallow `copy.copy` in the convert_to_normal branch: the
synthesized node shares the morpheme dict of `candidates[0]`, so
`morphemes.update` also rewrites the input node) and `output` is the
output candidate list at that position. -/
def applyPos (ff : PNode → Bool) (waf : WAF) (candidates : List PNode) :
    List PNode × List PNode :=
  let filtered := apply_filter ff none candidates
  if filtered ≠ [] then (candidates, filtered)
  else
    match waf with
    | WAF.return_all => (candidates, candidates)
    | WAF.convert_to_normal =>
      match candidates.find? (fun nd => nd.node_type = NORMAL) with
      | some nd => (candidates, [nd])
      | none =>
        match candidates with
        | [] => (candidates, [])
        | c0 :: rest =>
          let m := convertMorphUpdate c0.morphemes
          let newNode : PNode :=
            { c0 with node_type := NORMAL, morphemes := m,
                      geometry := none, prop := none }
          (({ c0 with morphemes := m }) :: rest, [newNode])

/-- `Filter.apply` (filter.py, lines 63-106) in state-passing style:
first component is the input lattice after the call, second the output
lattice. -/
def filterApply (ff : PNode → Bool) (waf : WAF) (input : Lattice) :
    Lattice × Lattice :=
  (input.map (fun cands => (applyPos ff waf cands).1),
   input.map (fun cands => (applyPos ff waf cands).2))

/-- `EntityClassFilter.filter_func` (filter.py, lines 293-317).  `rmatch`
is the compiled `re_ne_class` regex's anchored `match`, taken as a
parameter (the regex engine is external). -/
def entityFilterFunc (rmatch : String → Bool) (cand : PNode) : Bool :=
  match cand.prop with
  | none => false
  | some p =>
    match p.ne_class with
    | none => false
    | some ne => rmatch ne

/-! ## Temporal filters (`pygeonlp/api/temporal_filter.py`) -/

/-- `TemporalFilter.get_duration_from_dates` on two already-parsed dates
(temporal_filter.py, lines 89-130): order the endpoints; a missing second
date means a single-day duration. -/
def get_duration_from_dates (date0 : PyDate) (date1 : Option PyDate) :
    PyDate × PyDate :=
  let d1 := date1.getD date0
  if date0 > d1 then (d1, date0) else (date0, d1)

/-- `TemporalFilter.duration_from_candidate` (temporal_filter.py, lines
132-146): `None` when the candidate has no `prop`; otherwise the pair of
parsed `valid_from` / `valid_to` values (each `None` when absent). -/
def duration_from_candidate (cand : PNode) :
    Option (Option PyDate × Option PyDate) :=
  match cand.prop with
  | none => none
  | some p => some (p.valid_from, p.valid_to)

/-- Truthy comparison `span[i] and span[i] > x` on an optional date
(a `datetime.date` is always truthy, `None` is falsy). -/
def optGT (d : Option PyDate) (x : PyDate) : Bool :=
  match d with
  | none => false
  | some v => v > x

/-- Truthy comparison `span[i] and span[i] < x` on an optional date. -/
def optLT (d : Option PyDate) (x : PyDate) : Bool :=
  match d with
  | none => false
  | some v => v < x

/-- `TimeExistsFilter.filter_func` (temporal_filter.py, lines 210-234). -/
def timeExistsFunc (dur : PyDate × PyDate) (cand : PNode) : Bool :=
  match duration_from_candidate cand with
  | none => true
  | some span =>
    if optGT span.1 dur.2 then false
    else if optLT span.2 dur.1 then false
    else true

/-- `TimeBeforeFilter.filter_func` (temporal_filter.py, lines 298-319). -/
def timeBeforeFunc (dur : PyDate × PyDate) (cand : PNode) : Bool :=
  match duration_from_candidate cand with
  | none => true
  | some span =>
    if optGT span.1 dur.1 then false else true

/-- `TimeAfterFilter.filter_func` (temporal_filter.py, lines 383-404). -/
def timeAfterFunc (dur : PyDate × PyDate) (cand : PNode) : Bool :=
  match duration_from_candidate cand with
  | none => true
  | some span =>
    if optLT span.2 dur.2 then false else true

/-- `TimeOverlapsFilter.filter_func` (temporal_filter.py, lines 469-493). -/
def timeOverlapsFunc (dur : PyDate × PyDate) (cand : PNode) : Bool :=
  match duration_from_candidate cand with
  | none => true
  | some span =>
    if optGT span.1 dur.2 then false
    else if optLT span.2 dur.1 then false
    else true

/-- `TimeCoversFilter.filter_func` (temporal_filter.py, lines 558-582). -/
def timeCoversFunc (dur : PyDate × PyDate) (cand : PNode) : Bool :=
  match duration_from_candidate cand with
  | none => true
  | some span =>
    if optGT span.1 dur.1 then false
    else if optLT span.2 dur.2 then false
    else true

/-- `TimeContainsFilter.filter_func` (temporal_filter.py, lines 652-674):
`True` only when both `valid_from` and `valid_to` are present (truthy) and
lie inside the filter's duration. -/
def timeContainsFunc (dur : PyDate × PyDate) (cand : PNode) : Bool :=
  match duration_from_candidate cand with
  | none => true
  | some span =>
    match span.1, span.2 with
    | some d0, some d1 => decide (d0 ≥ dur.1) && decide (d1 ≤ dur.2)
    | _, _ => false

/-! ## Default scorer (`pygeonlp/api/scoring.py`) -/

/-- `node.prop['ne_class']` / `node.prop.get('ne_class', '')`: the
candidate's entity class, `""` when absent (a geoword/address node always
carries a `prop` in the data model; the `getD` totalizes the access). -/
def neClassD (nd : PNode) : String :=
  (nd.prop.bind GeoProp.ne_class).getD ""

/-- `set(node.prop.get('hypernym', []))` as a list (set semantics is only
used through emptiness and intersection). -/
def hypernymsOf (nd : PNode) : List String :=
  (nd.prop.map GeoProp.hypernym).getD []

/-- Non-empty set intersection `a & b` of two string sets. -/
def interNonempty (a b : List String) : Bool :=
  a.any (fun x => x ∈ b)

/-- `ScoringClass.node_relation_score` (scoring.py, lines 134-207).
`dist` is the external WGS84 geodesic distance `node0.distance(node1)` in
meters (`none` models the `RuntimeError` for nodes without a point, which
the source catches and ignores).  `int(50000.0/dist)` truncates toward zero
and equals the floor for the positive values reached in the `else` branch. -/
def node_relation_score (dist : PNode → PNode → Option ℚ)
    (node0 node1 : PNode) : Int :=
  if node0.node_type = NORMAL ∨ node1.node_type = NORMAL then 0
  else
    let sClass : Int :=
      if node0.node_type = GEOWORD ∧ node1.node_type = GEOWORD ∧
         neClassD node0 = neClassD node1 then 10 else 0
    let sChild0 : Int :=
      if node0.node_type = GEOWORD ∧
         interNonempty (hypernymsOf node0) (get_notations node1) then 5 else 0
    let sChild1 : Int :=
      if node1.node_type = GEOWORD ∧
         interNonempty (hypernymsOf node1) (get_notations node0) then 5 else 0
    let sSibling : Int :=
      if node0.node_type = GEOWORD ∧ hypernymsOf node0 ≠ [] ∧
         node1.node_type = GEOWORD ∧ hypernymsOf node1 ≠ [] ∧
         interNonempty (hypernymsOf node0) (hypernymsOf node1) then 5 else 0
    let sDist : Int :=
      match dist node0 node1 with
      | none => 0
      | some d => if d < 10000 then 5 else ⌊(50000 : ℚ) / d⌋
    sClass + sChild0 + sChild1 + sSibling + sDist

/-- `len(node.morphemes)` on the list form (ADDRESS nodes); the embedded
code never takes the length of the single-dict form. -/
def morphLen : Morphs → Nat
  | Morphs.one _ => 0
  | Morphs.many ms => ms.length

/-- `isinstance(node.morphemes, (list, tuple))`. -/
def isListMorphs : Morphs → Bool
  | Morphs.one _ => false
  | Morphs.many _ => true

/-- `nlookup` selection in `ScoringClass.path_score` (scoring.py, lines
81-84): `if self.options: nlookup = self.options else: nlookup = 5` — both
`None` and the falsy `0` fall back to 5. -/
def nlookupOf (options : Option Int) : Int :=
  match options with
  | none => 5
  | some v => if v = 0 then 5 else v

/-- Inner loop of the pairwise term of `path_score` (scoring.py, lines
122-130): scan the nodes after `n0`, skip Normal ones, add
`node_relation_score(n0, n1)` and decrement the shared `nlookup` budget,
breaking once it reaches 0.  Returns the score added and the new budget. -/
def innerLook (dist : PNode → PNode → Option ℚ) (n0 : PNode) :
    List PNode → Int → Int × Int
  | [], b => (0, b)
  | n1 :: rest, b =>
    if n1.node_type = NORMAL then innerLook dist n0 rest b
    else
      let s := node_relation_score dist n0 n1
      let b' := b - 1
      if b' ≤ 0 then (s, b')
      else
        let r := innerLook dist n0 rest b'
        (s + r.1, r.2)

/-- Outer loop of the pairwise term of `path_score` (scoring.py, lines
117-130): for each non-Normal `n0`, run the inner loop on the rest of the
path, threading the single `nlookup` budget through. -/
def outerLook (dist : PNode → PNode → Option ℚ) :
    List PNode → Int → Int
  | [], _ => 0
  | n0 :: rest, b =>
    if n0.node_type = NORMAL then outerLook dist rest b
    else
      let r := innerLook dist n0 rest b
      r.1 + outerLook dist rest r.2

/-- `RankedResults.collect_geowords` (linker.py, lines 368-380). -/
def collect_geowords (result : List PNode) : List PNode :=
  result.filter (fun nd => nd.node_type = GEOWORD)

/-- `RankedResults.collect_addresses` (linker.py, lines 382-394). -/
def collect_addresses (result : List PNode) : List PNode :=
  result.filter (fun nd => nd.node_type = ADDRESS)

/-- The non-pairwise part of `ScoringClass.path_score` (scoring.py, lines
90-113): `len(path) - len(geonodes)`, plus `10 * len(address.morphemes)`
per address, plus `10 * freq` for every `ne_class` occurring more than once
among the geowords. -/
def path_score_base (path : List PNode) : Int :=
  let geowords := collect_geowords path
  let addresses := collect_addresses path
  let base : Int := (path.length : Int) - ((geowords.length : Int) + (addresses.length : Int))
  let addrTerm : Int :=
    (addresses.map (fun a => 10 * (morphLen a.morphemes : Int))).sum
  let clsList := geowords.map neClassD
  let clsTerm : Int :=
    (clsList.dedup.map (fun c =>
      let f := clsList.count c
      if 1 < f then (f : Int) * 10 else 0)).sum
  base + addrTerm + clsTerm

/-- `ScoringClass.path_score` (scoring.py, lines 44-132). -/
def path_score (dist : PNode → PNode → Option ℚ) (options : Option Int)
    (path : List PNode) : Int :=
  path_score_base path + outerLook dist path (nlookupOf options)

/-- The pairwise term as the claim states it: each non-Normal node `n0`
gets its own lookahead window of the next `nlookup` non-Normal nodes. -/
def claimWindowPairwise (dist : PNode → PNode → Option ℚ) (nlookup : Int) :
    List PNode → Int
  | [] => 0
  | n0 :: rest =>
    (if n0.node_type = NORMAL then 0
     else (((rest.filter (fun n1 => n1.node_type ≠ NORMAL)).take nlookup.toNat).map
             (node_relation_score dist n0)).sum)
    + claimWindowPairwise dist nlookup rest

/-- `path_score` as the claim states it (`path_score_base` plus the
per-node-window pairwise term). -/
def path_score_claim (dist : PNode → PNode → Option ℚ) (options : Option Int)
    (path : List PNode) : Int :=
  path_score_base path + claimWindowPairwise dist (nlookupOf options) path

/-- The pairwise term with the *shared* budget, stated declaratively: each
non-Normal `n0` scores the next `min(max(budget,1), …)` non-Normal nodes,
where `budget` is a single counter initialized to `nlookup` and decremented
once per scored pair across the entire path (a node reached with the budget
already exhausted still scores exactly one following non-Normal node). -/
def sharedWindowPairwise (dist : PNode → PNode → Option ℚ) :
    List PNode → Int → Int
  | [], _ => 0
  | n0 :: rest, b =>
    if n0.node_type = NORMAL then sharedWindowPairwise dist rest b
    else
      let takeN : Nat := if b ≤ 0 then 1 else b.toNat
      let win := (rest.filter (fun n1 => n1.node_type ≠ NORMAL)).take takeN
      (win.map (node_relation_score dist n0)).sum
        + sharedWindowPairwise dist rest (b - win.length)

/-! ## GreedySearchFilter (`pygeonlp/api/filter.py`, lines 320-474) -/

/-- `GreedySearchFilter._get_best` (filter.py, lines 438-474): sum each
node's relation scores against the hint nodes, then keep the maximum-score
nodes (`max_score` starts at 0.0, so nodes scoring below 0 never enter). -/
def getBest (dist : PNode → PNode → Option ℚ)
    (nodes hints : List PNode) : List PNode :=
  let scored := nodes.map (fun nd =>
    (nd, (hints.map (fun h => node_relation_score dist nd h)).sum))
  let st := scored.foldl (fun (st : List PNode × Int) p =>
      if p.2 > st.2 then ([p.1], p.2)
      else if p.2 = st.2 then (st.1 ++ [p.1], st.2)
      else st) ([], 0)
  st.1

/-- The per-row scan of the `geowords_pile` builder (filter.py, lines
370-384): collect GEOWORD candidates until an ADDRESS candidate clears the
collection and breaks. Returns the collected geowords and the breaking
ADDRESS node if any. -/
def rowScan : List PNode → List PNode → List PNode × Option PNode
  | [], acc => (acc, none)
  | nd :: rest, acc =>
    if nd.node_type = ADDRESS then ([], some nd)
    else if nd.node_type = GEOWORD then rowScan rest (acc ++ [nd])
    else rowScan rest acc

/-- `geowords_pile` construction in `GreedySearchFilter.apply` (filter.py,
lines 366-384), fuel-recursive on the position (for an ADDRESS row the
position advances by `len(node.morphemes)`; the fuel totalizes the
zero-width case, on which Python would not terminate). -/
def geowordsPileAux (input : Lattice) : Nat → Nat → List (Nat × List PNode)
  | 0, _ => []
  | fuel + 1, n =>
    if n < input.length then
      let row := input.getD n []
      match rowScan row [] with
      | (_, some ad) => geowordsPileAux input fuel (n + morphLen ad.morphemes)
      | (gws, none) =>
        if gws ≠ [] then (n, gws) :: geowordsPileAux input fuel (n + 1)
        else geowordsPileAux input fuel (n + 1)
    else []

/-- The `geowords_pile` list of `GreedySearchFilter.apply`. -/
def geowordsPile (input : Lattice) : List (Nat × List PNode) :=
  geowordsPileAux input input.length 0

/-- The `while dt < len(geowords_pile)` loop of `GreedySearchFilter.apply`
(filter.py, lines 405-431): look at hint piles at distance `dt` left then
right, keeping the best nodes; stop early when a unique best exists. -/
def dtLoopAux (dist : PNode → PNode → Option ℚ)
    (pile : List (Nat × List PNode)) (row : List PNode) (pidx : Nat) :
    Nat → Nat → List PNode → List PNode
  | 0, _, best => best
  | fuel + 1, dt, best =>
    if dt < pile.length then
      let best1 :=
        if dt ≤ pidx then getBest dist row (pile.getD (pidx - dt) (0, [])).2
        else best
      if dt ≤ pidx ∧ best1.length = 1 then best1
      else
        let best2 :=
          if pidx + dt < pile.length then
            getBest dist row (pile.getD (pidx + dt) (0, [])).2
          else best1
        if pidx + dt < pile.length ∧ best2.length = 1 then best2
        else dtLoopAux dist pile row pidx fuel (dt + 1) best2
    else best

/-- The candidate selection for one multi-candidate geoword row of
`GreedySearchFilter.apply`: `best_nodes` starts as the row itself, `dt`
starts at 1. -/
def dtLoop (dist : PNode → PNode → Option ℚ)
    (pile : List (Nat × List PNode)) (row : List PNode) (pidx : Nat) :
    List PNode :=
  dtLoopAux dist pile row pidx pile.length 1 row

/-- The output-building loop of `GreedySearchFilter.apply` (filter.py,
lines 390-434): rows before the next pile position (or with a single
candidate) pass through, other pile rows are narrowed by `dtLoop`. -/
def greedyAux (dist : PNode → PNode → Option ℚ) (input : Lattice)
    (pile : List (Nat × List PNode)) : Nat → Nat → Nat → Lattice
  | 0, _, _ => []
  | fuel + 1, i, pidx =>
    if i < input.length then
      let row := input.getD i []
      if pidx = pile.length ∨ i < (pile.getD pidx (0, [])).1 then
        row :: greedyAux dist input pile fuel (i + 1) pidx
      else if row.length = 1 then
        row :: greedyAux dist input pile fuel (i + 1) (pidx + 1)
      else
        dtLoop dist pile row pidx :: greedyAux dist input pile fuel (i + 1) (pidx + 1)
    else []

/-- `GreedySearchFilter.apply` (filter.py, lines 349-436). -/
def greedyApply (dist : PNode → PNode → Option ℚ) (input : Lattice) : Lattice :=
  greedyAux dist input (geowordsPile input) input.length 0 0

/-! ## Path enumeration and ranking (`pygeonlp/api/linker.py`) -/

instance : Inhabited Morpheme :=
  ⟨{ surface := "", pos := "", subclass1 := "", subclass2 := "",
     subclass3 := "", conjugated_form := "", conjugation_type := "" }⟩

instance : Inhabited Morphs := ⟨Morphs.one default⟩

instance : Inhabited PNode :=
  ⟨{ surface := "", node_type := 0, morphemes := default }⟩

/-- `linker.MAX_COMBINATIONS`. -/
def MAX_COMBINATIONS : Nat := 256

/-- Accumulator loop of `RankedResults.count_combinations` (linker.py,
lines 236-256): multiply the candidate counts, stopping early once the
running product exceeds `2147483647`. -/
def countCombinationsAux : Nat → Lattice → Nat
  | n, [] => n
  | n, c :: rest =>
    let n' := n * c.length
    if n' > 2147483647 then n' else countCombinationsAux n' rest

/-- `RankedResults.count_combinations` (linker.py, lines 236-256). -/
def count_combinations (lattice : Lattice) : Nat :=
  countCombinationsAux 1 lattice

/-- The exact number of path combinations: the product of the candidate
counts over all positions. -/
def prodLens (lattice : Lattice) : Nat :=
  (lattice.map List.length).prod

/-- The counter vector of `LinkedResults`, initialized to all zeros
(`reset_counter`, linker.py line 100). -/
def initCounters (lattice : Lattice) : List Int :=
  List.replicate lattice.length 0

/-- `self.lattice[pos][self.counters[pos]]`, totalized by defaults (all
uses are guarded by the counter-range invariant). -/
def selNode (lattice : Lattice) (counters : List Int) (pos : Nat) : PNode :=
  (lattice.getD pos []).getD (counters.getD pos 0).toNat default

/-- The per-position check `any(_node.node_type != ADDRESS for _node in
self.lattice[pos])` used by `get_result` and `increment_counter`. -/
def hasNonAddress (lattice : Lattice) (pos : Nat) : Bool :=
  (lattice.getD pos []).any (fun nd => nd.node_type ≠ ADDRESS)

/-- `counters[0] == -1`, the exhaustion flag of `LinkedResults`. -/
def exhausted (counters : List Int) : Bool :=
  counters.headD 0 = -1

/-- Body loop of `LinkedResults.get_result` (linker.py, lines 75-94):
collect the selected node at each position; a selected list-morpheme
(address) node at a position that also holds non-address candidates
advances by its morpheme count.  Fuel-recursive (Python would not
terminate on a zero-width address node). -/
def getResultAux (lattice : Lattice) (counters : List Int) :
    Nat → Nat → List PNode
  | 0, _ => []
  | fuel + 1, n =>
    if n < lattice.length then
      let node := selNode lattice counters n
      let step :=
        if isListMorphs node.morphemes ∧ hasNonAddress lattice n then
          morphLen node.morphemes
        else 1
      node :: getResultAux lattice counters fuel (n + step)
    else []

/-- `LinkedResults.get_result` (linker.py, lines 66-94). -/
def get_result (lattice : Lattice) (counters : List Int) :
    Option (List PNode) :=
  if exhausted counters then none
  else some (getResultAux lattice counters lattice.length 0)

/-- The position-collecting scan of `LinkedResults.increment_counter`
(linker.py, lines 125-151): record each position whose selected node is a
geoword or address; a selected address at a position that also holds
non-address candidates skips the covered span. -/
def incPositionsAux (lattice : Lattice) (counters : List Int) :
    Nat → Nat → List Nat
  | 0, _ => []
  | fuel + 1, pos =>
    if pos < lattice.length then
      let node := selNode lattice counters pos
      if node.node_type = ADDRESS then
        let nxt :=
          if hasNonAddress lattice pos then pos + morphLen node.morphemes
          else pos + 1
        pos :: incPositionsAux lattice counters fuel nxt
      else if node.node_type = GEOWORD then
        pos :: incPositionsAux lattice counters fuel (pos + 1)
      else incPositionsAux lattice counters fuel (pos + 1)
    else []

/-- The `positions` list of `LinkedResults.increment_counter`. -/
def incPositions (lattice : Lattice) (counters : List Int) : List Nat :=
  incPositionsAux lattice counters lattice.length 0

/-- The carry loop of `LinkedResults.increment_counter` (linker.py, lines
156-167): starting from the last collected position, increment its counter;
on overflow reset it to 0 and carry to the previous position; when all
positions overflow, set `counters[0] = -1`.  The argument list is the
`positions` list already reversed (Python pops from the end). -/
def carryLoop (lattice : Lattice) : List Nat → List Int → List Int
  | [], cs => cs.set 0 (-1)
  | p :: rest, cs =>
    let i := cs.getD p 0 + 1
    if i < ((lattice.getD p []).length : Int) then cs.set p i
    else carryLoop lattice rest (cs.set p 0)

/-- `LinkedResults.increment_counter` (linker.py, lines 121-167). -/
def increment_counter (lattice : Lattice) (counters : List Int) : List Int :=
  carryLoop lattice (incPositions lattice counters).reverse counters

/-- `LinkedResults.__next__` (linker.py, lines 49-58): `none` models the
`StopIteration`. -/
def lrNext (lattice : Lattice) (counters : List Int) :
    Option (List PNode × List Int) :=
  match get_result lattice counters with
  | none => none
  | some path => some (path, increment_counter lattice counters)

/-- Iterating `LinkedResults` for at most `fuel` steps: the list of emitted
paths. -/
def enumAux (lattice : Lattice) : Nat → List Int → List (List PNode)
  | 0, _ => []
  | fuel + 1, cs =>
    match get_result lattice cs with
    | none => []
    | some path => path :: enumAux lattice fuel (increment_counter lattice cs)

/-- The full emission sequence of `LinkedResults(lattice)`: `prodLens`
steps always suffice (proved below). -/
def enumPaths (lattice : Lattice) : List (List PNode) :=
  enumAux lattice (prodLens lattice) (initCounters lattice)

/-- The counter state after up to `fuel` iterator steps. -/
def runSteps (lattice : Lattice) : Nat → List Int → List Int
  | 0, cs => cs
  | fuel + 1, cs =>
    if exhausted cs then cs
    else runSteps lattice fuel (increment_counter lattice cs)

/-- A scored result record (`{"score": ..., "result": ...}` in
`RankedResults.get`). -/
structure RRecord where
  score : Int
  result : List PNode
  deriving DecidableEq, Repr

instance : Inhabited RRecord := ⟨{ score := 0, result := [] }⟩

deriving instance DecidableEq for Except

/-- `results.insert(idx, r)`. -/
def insertAt (rs : List RRecord) (idx : Nat) (r : RRecord) : List RRecord :=
  rs.take idx ++ r :: rs.drop idx

/-- The `while n > 0` insertion loop of `RankedResults.get` (linker.py,
lines 298-305): scan from the end; insert after the first record (from the
right) whose score strictly exceeds the new score, at the front if none. -/
def insLoop (rs : List RRecord) (r : RRecord) : Nat → List RRecord
  | 0 => rs
  | n + 1 =>
    if (rs.getD n default).score > r.score then insertAt rs (n + 1) r
    else if n = 0 then insertAt rs 0 r
    else insLoop rs r n

/-- One iteration of the result-maintenance in `RankedResults.get`
(linker.py, lines 292-307): append the first record outright; insert later
records by the scan-from-the-right loop and truncate to `max_results`. -/
def addRecord (maxResults : Nat) (rs : List RRecord) (r : RRecord) :
    List RRecord :=
  if rs.length = 0 then [r]
  else (insLoop rs r rs.length).take maxResults

/-- The record list built by `RankedResults.get` over the emitted paths. -/
def rankFold (maxResults : Nat) (recs : List RRecord) : List RRecord :=
  recs.foldl (addRecord maxResults) []

/-- The scored records of the emitted paths, in emission order. -/
def pathRecords (dist : PNode → PNode → Option ℚ) (options : Option Int)
    (lattice : Lattice) : List RRecord :=
  (enumPaths lattice).map
    (fun p => { score := path_score dist options p, result := p })

/-- `RankedResults.get` (linker.py, lines 258-309): raise `LinkerError`
(modelled by `Except.error (combination, max_combinations)`) when the
combination count exceeds the bound, else enumerate, score and rank. -/
def rr_get (dist : PNode → PNode → Option ℚ) (options : Option Int)
    (maxResults maxCombinations : Nat) (lattice : Lattice) :
    Except (Nat × Nat) (List RRecord) :=
  let combination := count_combinations lattice
  if combination > maxCombinations then
    Except.error (combination, maxCombinations)
  else
    Except.ok (rankFold maxResults (pathRecords dist options lattice))

/-- The insertion the claim describes (and an insertion-sort helper): place
the new record after the strictly-greater records — i.e. *before* existing
records of equal score. -/
def insRecSpec (r : RRecord) : List RRecord → List RRecord
  | [] => [r]
  | x :: xs => if x.score > r.score then x :: insRecSpec r xs else r :: x :: xs

/-- Insertion-sorting the records in arrival order with `insRecSpec`
(descending scores, later arrivals before equal-score earlier ones). -/
def sortRecs (l : List RRecord) : List RRecord :=
  l.foldl (fun acc r => insRecSpec r acc) []

/-! ## Address detection and lattice chunking (`pygeonlp/api/parser.py`) -/

/-- String prefix test on the character lists (kernel-computable form of
`String.isPrefixOf`). -/
def strPrefix (p s : String) : Bool :=
  p.data.isPrefixOf s.data

/-- Anchored `match` of the default `address_regex`
`^(都道府県|市区町村|行政地域|居住地名)(\/.+|)` — the second group may be
empty, so `re.match` succeeds exactly on strings starting with one of the
four class labels. -/
def default_address_regex_match (s : String) : Bool :=
  ["都道府県", "市区町村", "行政地域", "居住地名"].any
    (fun pre => strPrefix pre s)

/-- The per-position `can_be_address` detection loop of
`Parser.add_address_candidates` (parser.py, lines 420-437): a position can
start an address iff some candidate is a GEOWORD whose `ne_class` matches
the address regex (`rmatch`).  The Normal-noun branch in the source is a
dead `"""ToDo: ..."""` string literal and contributes nothing. -/
def can_be_address (rmatch : String → Bool) (nodes : List PNode) : Bool :=
  nodes.any (fun nd => nd.node_type == GEOWORD && rmatch (neClassD nd))

/-- The `Normal noun classified as proper/region/general` test of the
claim (the condition of the disabled branch: `_check_word(node.morphemes,
{'pos': '名詞', 'subclass1': '固有名詞', 'subclass2': '地域', 'subclass3':
'一般'})` on a NORMAL node; `_check_word` is false on the list form). -/
def is_region_general_normal (nd : PNode) : Bool :=
  nd.node_type == NORMAL &&
  (match nd.morphemes with
   | Morphs.one m =>
     m.pos == "名詞" && m.subclass1 == "固有名詞" &&
     m.subclass2 == "地域" && m.subclass3 == "一般"
   | Morphs.many _ => false)

/-- The address-candidate-start detection as the claim states it: case (a)
a matching GEOWORD, or case (b) a proper/region/general NORMAL noun whose
surface the address-tree trie recognizes with a matching gazetteer hit
(`trieHit` bundles the external trie+gazetteer test of the claim). -/
def can_be_address_claim (rmatch trieHit : String → Bool)
    (nodes : List PNode) : Bool :=
  nodes.any (fun nd =>
    (nd.node_type == GEOWORD && rmatch (neClassD nd)) ||
    (is_region_general_normal nd && trieHit nd.surface))

/-- `lattice[i][0]` of a position, totalized. -/
def firstNode (lattice : Lattice) (i : Nat) : PNode :=
  (lattice.getD i []).headD default

/-- Sentence-end punctuation split test (parser.py, lines 795-797). -/
def isKutenSplit (nd : PNode) : Bool :=
  nd.node_type != ADDRESS &&
  (match nd.morphemes with
   | Morphs.one m => m.subclass1 == "句点"
   | Morphs.many _ => false)

/-- Newline control-code split test (parser.py, lines 806-812):
`_check_word` on the morpheme dict (false on the list form). -/
def isNewlineSplit (nd : PNode) : Bool :=
  nd.node_type != ADDRESS &&
  (match nd.morphemes with
   | Morphs.one m =>
     m.pos == "記号" && m.subclass1 == "制御コード" && m.subclass2 == "改行"
   | Morphs.many _ => false)

/-- Decorative-symbol split test (parser.py, lines 821-827).  The Python
test `node.surface in ('／/★●○◎■□◇')` is a substring test against that
single string. -/
def isSymbolSplit (nd : PNode) : Bool :=
  nd.node_type != ADDRESS &&
  (match nd.morphemes with
   | Morphs.one m => m.pos == "記号" && m.subclass1 == "一般"
   | Morphs.many _ => false) &&
  decide (nd.surface.data <:+: "／/★●○◎■□◇".data)

/-- Comma split test (parser.py, lines 836-839). -/
def isToutenSplit (nd : PNode) : Bool :=
  nd.node_type != ADDRESS &&
  (match nd.morphemes with
   | Morphs.one m => m.subclass1 == "読点"
   | Morphs.many _ => false)

/-- `for i in range(pos_from, pos_to - 1): if p(lattice[i][0]): …` — the
first matching split position. -/
def findSplit (lattice : Lattice) (posFrom posTo : Nat)
    (p : PNode → Bool) : Option Nat :=
  (List.range' posFrom (posTo - 1 - posFrom)).find?
    (fun i => p (firstNode lattice i))

/-- The midpoint-halving loop of `get_processible_lattice_part`
(parser.py, lines 848-869): walk `i` forward by node width (an address
node's width where present) until the midpoint is reached; `none` when the
loop exits without a break (Python then leaves `pos_to` unchanged). -/
def halveAux (lattice : Lattice) (posFrom posTo : Nat) :
    Nat → Nat → Option Nat
  | 0, _ => none
  | fuel + 1, i =>
    if i < posTo - 1 then
      if posFrom + (posTo - posFrom) / 2 ≤ i then some i
      else
        let width :=
          if hasNonAddress lattice i then
            match (lattice.getD i []).find? (fun nd => isListMorphs nd.morphemes) with
            | some nd => morphLen nd.morphemes
            | none => 1
          else 1
        halveAux lattice posFrom posTo fuel (i + width)
    else none

/-- The split-point computation of one oversized window in
`get_processible_lattice_part` (parser.py, lines 790-869): try sentence-end
punctuation, newline, decorative symbol, comma, then midpoint halving; when
nothing applies the window is left unchanged (Python loops forever). -/
def chunkerNewTo (lattice : Lattice) (posFrom posTo : Nat) : Nat :=
  match findSplit lattice posFrom posTo isKutenSplit with
  | some i => i + 1
  | none =>
    match findSplit lattice posFrom posTo isNewlineSplit with
    | some i => i + 1
    | none =>
      match findSplit lattice posFrom posTo isSymbolSplit with
      | some i => i + 1
      | none =>
        match findSplit lattice posFrom posTo isToutenSplit with
        | some i => i + 1
        | none =>
          match halveAux lattice posFrom posTo (posTo + 1) posFrom with
          | some i => i
          | none => posTo

/-- `Parser.get_processible_lattice_part` (parser.py, lines 753-869) run to
completion: the generator's yielded chunks, or `none` when `fuel`
iterations of the outer `while pos_from < len(lattice)` loop do not finish
(in particular when a window can neither be emitted nor split, on which
Python loops forever). -/
def chunkerRun (lattice : Lattice) : Nat → Nat → Nat → Option (List Lattice)
  | 0, _, _ => none
  | fuel + 1, posFrom, posTo =>
    if posFrom < lattice.length then
      let part := (lattice.drop posFrom).take (posTo - posFrom)
      if count_combinations part < MAX_COMBINATIONS then
        match chunkerRun lattice fuel posTo lattice.length with
        | none => none
        | some chunks => some (part :: chunks)
      else
        chunkerRun lattice fuel posFrom (chunkerNewTo lattice posFrom posTo)
    else some []

/-- The chunk stream consumed by `Parser.geoparse` (parser.py, line 739). -/
def chunker (lattice : Lattice) (fuel : Nat) : Option (List Lattice) :=
  chunkerRun lattice fuel 0 lattice.length

/-! ## Concrete fixtures used by the claim theorems and witnesses -/

/-- A geoword morpheme dict as built by `Parser.analyze_sentence`. -/
def mGeo : Morpheme :=
  { surface := "X", pos := "名詞", subclass1 := "固有名詞",
    subclass2 := "地名語", subclass3 := "id:X",
    conjugated_form := "*", conjugation_type := "*" }

/-- A gazetteer prop with the given id and entity class and no optional
fields. -/
def gp (id cls : String) : GeoProp :=
  { geolod_id := id, body := "X", prefixes := [], suffixes := [],
    ne_class := some cls, hypernym := [], valid_from := none,
    valid_to := none }

/-- A geoword node with the given id and entity class. -/
def gw (id cls : String) : PNode :=
  { surface := "X", node_type := GEOWORD, morphemes := Morphs.one mGeo,
    geometry := some (0, 0), prop := some (gp id cls) }

/-- The geodesic-distance oracle for fixtures placed at identical
coordinates: the WGS84 geodesic inverse of two identical points is 0 m. -/
def dist0 : PNode → PNode → Option ℚ := fun _ _ => some 0

/-- A NORMAL node with a multi-character surface. -/
def nNagata : PNode :=
  { surface := "永田町", node_type := NORMAL, morphemes := Morphs.one mGeo }

/-- Anchored `match` of the regex `市区町村` (a literal pattern matches
exactly the strings it prefixes). -/
def cityMatch : String → Bool := fun s => strPrefix "市区町村" s

/-- A NORMAL noun node classified `名詞/固有名詞/地域/一般`. -/
def nReg : PNode :=
  { surface := "本郷", node_type := NORMAL,
    morphemes := Morphs.one
      { surface := "本郷", pos := "名詞", subclass1 := "固有名詞",
        subclass2 := "地域", subclass3 := "一般",
        conjugated_form := "*", conjugation_type := "*" } }

/-! ## C1 — `Node.get_notations` -/

/-- C1 (code bug): at the NORMAL node with surface `永田町`,
`get_notations` evaluates `set(self.surface,)` = `set("永田町")`, the set
of the surface's *characters*; it does not contain the full surface
`永田町`, contradicting both the claim (`{surface}`) and the method's own
docstring.  The GEOWORD branch behaves as claimed: it contains `body`. -/
theorem C1_notations_eval :
    get_notations nNagata = ["永", "田", "町"]
    ∧ "永田町" ∉ get_notations nNagata
    ∧ nNagata.node_type = NORMAL
    ∧ "X" ∈ get_notations (gw "a" "c1")
    ∧ (gw "a" "c1").prop = some (gp "a" "c1")
    ∧ (gp "a" "c1").body = "X" := by
  refine ⟨by decide, by decide, rfl, by decide, rfl, rfl⟩

/-! ## C2 — filters mutate the input lattice in the convert_to_normal
synthesis branch -/

/-- The concrete one-position input lattice for C2: a single GEOWORD
candidate whose `ne_class` fails the entity-class filter `市区町村`. -/
def latC2 : Lattice := [[gw "a" "鉄道施設/鉄道駅"]]

/-- C2 (code bug): applying the entity-class filter `市区町村` (policy
`convert_to_normal`) to `latC2` empties the position; the synthesis branch
runs `copy.copy(candidates[0])` followed by `morphemes.update(...)`, and
the shallow copy shares the morpheme dict with the input node, so the
*input* lattice's node is rewritten (its morpheme `subclass2` changes from
`地名語` to `地域`, etc.).  The claim (and the spec's functional-style
ownership rule) says the input lattice is left unchanged. -/
theorem C2_filter_apply_mutates_input :
    (filterApply (entityFilterFunc cityMatch) WAF.convert_to_normal latC2).1 ≠ latC2
    ∧ (filterApply (entityFilterFunc cityMatch) WAF.convert_to_normal latC2).1
      = [[{ gw "a" "鉄道施設/鉄道駅" with
              morphemes := convertMorphUpdate (Morphs.one mGeo) }]]
    ∧ (filterApply (entityFilterFunc cityMatch) WAF.convert_to_normal latC2).2
      = [[{ gw "a" "鉄道施設/鉄道駅" with
              node_type := NORMAL,
              morphemes := convertMorphUpdate (Morphs.one mGeo),
              geometry := none, prop := none }]] := by
  refine ⟨by decide, by decide, by decide⟩

/-! ## C4 — address-candidate start detection -/

/-- C4 counterexample: a position holding only the proper/region/general
NORMAL noun `本郷` (case (b) of the claim, with the address-tree trie
recognizing the surface) is *not* treated as an address candidate start by
the code: the Normal-noun branch of `add_address_candidates` is a dead
string literal. -/
theorem C4_counterexample :
    can_be_address default_address_regex_match [nReg] = false
    ∧ can_be_address_claim default_address_regex_match (fun _ => true) [nReg] = true
    ∧ is_region_general_normal nReg = true := by
  refine ⟨by decide, by decide, by decide⟩

/-- C4 amended: a lattice position is treated as an address candidate
start iff some candidate there is a GEOWORD whose `ne_class` matches the
configured address-class regex (case (a) alone); in particular positions
holding no GEOWORD candidate never trigger the address-tree search,
whatever their NORMAL candidates look like. -/
theorem C4_amended (rmatch : String → Bool) (nodes : List PNode) :
    (can_be_address rmatch nodes = true ↔
      ∃ nd ∈ nodes, nd.node_type = GEOWORD ∧ rmatch (neClassD nd) = true)
    ∧ ((∀ nd ∈ nodes, nd.node_type ≠ GEOWORD) →
      can_be_address rmatch nodes = false) := by
  constructor
  · simp [can_be_address, List.any_eq_true, Bool.and_eq_true, beq_iff_eq]
  · intro h
    simp only [can_be_address, List.any_eq_false]
    intro nd hnd
    simp [beq_iff_eq, h nd hnd]

/-! ## C5 — temporal filters on candidates without temporal props -/

/-- C5 counterexample: `TimeContainsFilter.filter_func` rejects a geoword
candidate whose `prop` is present but carries neither `valid_from` nor
`valid_to` (the source requires both endpoints to be truthy), while the
claim says every temporal filter passes such candidates. -/
theorem C5_counterexample :
    timeContainsFunc (0, 10) (gw "a" "c1") = false
    ∧ (gw "a" "c1").prop = some (gp "a" "c1")
    ∧ (gp "a" "c1").valid_from = none
    ∧ (gp "a" "c1").valid_to = none := by
  refine ⟨by decide, rfl, rfl, rfl⟩

/-- C5 amended: a candidate without a `prop` passes all six temporal
filters; a candidate whose `prop` is present but carries neither
`valid_from` nor `valid_to` passes Exists, Before, After, Overlaps and
Covers, but *fails* Contains. -/
theorem C5_amended (dur : PyDate × PyDate) (cand : PNode) :
    (cand.prop = none →
      timeExistsFunc dur cand = true
      ∧ timeBeforeFunc dur cand = true
      ∧ timeAfterFunc dur cand = true
      ∧ timeOverlapsFunc dur cand = true
      ∧ timeCoversFunc dur cand = true
      ∧ timeContainsFunc dur cand = true)
    ∧ (∀ p, cand.prop = some p → p.valid_from = none → p.valid_to = none →
      timeExistsFunc dur cand = true
      ∧ timeBeforeFunc dur cand = true
      ∧ timeAfterFunc dur cand = true
      ∧ timeOverlapsFunc dur cand = true
      ∧ timeCoversFunc dur cand = true
      ∧ timeContainsFunc dur cand = false) := by
  constructor
  · intro h
    simp [timeExistsFunc, timeBeforeFunc, timeAfterFunc, timeOverlapsFunc,
      timeCoversFunc, timeContainsFunc, duration_from_candidate, h]
  · intro p hp h0 h1
    simp [timeExistsFunc, timeBeforeFunc, timeAfterFunc, timeOverlapsFunc,
      timeCoversFunc, timeContainsFunc, duration_from_candidate, hp, h0, h1,
      optGT, optLT]

/-- C5 witness: the amended theorem applied to the duration `(0, 10)` and
the geoword fixture whose prop lacks both temporal keys. -/
theorem C5_amended_witness :
    timeExistsFunc (0, 10) (gw "a" "c1") = true
    ∧ timeBeforeFunc (0, 10) (gw "a" "c1") = true
    ∧ timeAfterFunc (0, 10) (gw "a" "c1") = true
    ∧ timeOverlapsFunc (0, 10) (gw "a" "c1") = true
    ∧ timeCoversFunc (0, 10) (gw "a" "c1") = true
    ∧ timeContainsFunc (0, 10) (gw "a" "c1") = false :=
  (C5_amended (0, 10) (gw "a" "c1")).2 (gp "a" "c1") rfl rfl rfl

/-! ## C3 — the pairwise lookahead of `path_score` -/

theorem innerLook_spec (dist : PNode → PNode → Option ℚ) (n0 : PNode) :
    ∀ (rest : List PNode) (b : Int),
      innerLook dist n0 rest b =
        (((((rest.filter (fun n1 => n1.node_type ≠ NORMAL)).take
              (if b ≤ 0 then 1 else b.toNat)).map
            (node_relation_score dist n0)).sum),
         b - (((rest.filter (fun n1 => n1.node_type ≠ NORMAL)).take
              (if b ≤ 0 then 1 else b.toNat)).length)) := by
  intro rest
  induction rest with
  | nil =>
    intro b
    simp [innerLook]
  | cons n1 rest ih =>
    intro b
    by_cases hn : n1.node_type = NORMAL
    · simpa [innerLook, hn] using ih b
    · by_cases hb1 : b - 1 ≤ 0
      · have hsmall : (if b ≤ 0 then 1 else b.toNat) = 1 := by
          rcases le_or_lt b 0 with hb | hb
          · simp [if_pos hb]
          · have : ¬ b ≤ 0 := not_le.mpr hb
            simp only [if_neg this]
            omega
        simp [innerLook, hn, hb1, hsmall, List.filter_cons, List.take_succ_cons]
      · have hb2 : 2 ≤ b := by omega
        have hcond : ¬ b ≤ 0 := by omega
        have hcond' : ¬ b - 1 ≤ 0 := hb1
        have htn : (b - 1).toNat = b.toNat - 1 := by omega
        simp only [innerLook, if_neg hn, if_neg hb1, ih (b - 1),
          List.filter_cons, if_pos (show (decide (n1.node_type ≠ NORMAL)) = true by simp [hn])]
        simp only [if_neg hcond, if_neg hcond', htn]
        have h1 : 1 ≤ b.toNat := by omega
        rcases Nat.exists_eq_add_of_le h1 with ⟨m, hm⟩
        have hm' : b.toNat = m + 1 := by omega
        simp only [hm', List.take_succ_cons, Nat.add_sub_cancel, List.map_cons,
          List.sum_cons, List.length_cons, Prod.mk.injEq]
        exact ⟨trivial, by push_cast; ring⟩

theorem outerLook_eq_sharedWindow (dist : PNode → PNode → Option ℚ) :
    ∀ (path : List PNode) (b : Int),
      outerLook dist path b = sharedWindowPairwise dist path b := by
  intro path
  induction path with
  | nil => intro b; simp [outerLook, sharedWindowPairwise]
  | cons n0 rest ih =>
    intro b
    by_cases hn : n0.node_type = NORMAL
    · simp [outerLook, sharedWindowPairwise, hn, ih]
    · simp only [outerLook, sharedWindowPairwise, if_neg hn,
        innerLook_spec dist n0 rest b, ih]

/-- C3 amended: the pairwise term of `path_score` does not give each
non-Normal node its own `nlookup` window; instead a *single* budget,
initialized to `nlookup` and decremented once per scored pair over the
whole path, is shared: each non-Normal node scores the next
`max(budget, 1)`-capped run of following non-Normal nodes (so once the
budget is exhausted each later non-Normal node still scores exactly one
following pair). -/
theorem C3_amended (dist : PNode → PNode → Option ℚ) (options : Option Int)
    (path : List PNode) :
    path_score dist options path =
      path_score_base path +
        sharedWindowPairwise dist path (nlookupOf options) := by
  unfold path_score
  rw [outerLook_eq_sharedWindow]

/-- Five geoword fixtures at identical coordinates with pairwise-distinct
entity classes and empty hypernym lists: every pair scores exactly the
5-point distance bonus. -/
def path5 : List PNode :=
  [gw "a" "c1", gw "b" "c2", gw "c" "c3", gw "d" "c4", gw "e" "c5"]

/-- C3 counterexample: on a path of five non-Normal nodes whose pairwise
relation score is 5 each (identical coordinates, distinct classes, no
hypernyms), the code scores 7 pairs (a shared budget of 5, then one pair
for each later node) = 35, while the claimed per-node window of 5 scores
all 10 pairs = 50. -/
theorem C3_counterexample :
    path_score dist0 none path5 = 35
    ∧ path_score_claim dist0 none path5 = 50
    ∧ path_score dist0 none path5 ≠ path_score_claim dist0 none path5 := by
  refine ⟨by decide, by decide, by decide⟩

/-! ## C8 — filters preserve the number of positions and their
non-emptiness -/

theorem node_relation_score_nonneg (dist : PNode → PNode → Option ℚ)
    (node0 node1 : PNode) : 0 ≤ node_relation_score dist node0 node1 := by
  unfold node_relation_score
  by_cases h : node0.node_type = NORMAL ∨ node1.node_type = NORMAL
  · simp [h]
  · simp only [if_neg h]
    have hd : (0 : Int) ≤
        (match dist node0 node1 with
         | none => 0
         | some d => if d < 10000 then 5 else ⌊(50000 : ℚ) / d⌋) := by
      cases hdist : dist node0 node1 with
      | none => simp
      | some d =>
        by_cases hlt : d < 10000
        · simp [hlt]
        · have hdpos : (0 : ℚ) < d := by
            have : (10000 : ℚ) ≤ d := not_lt.mp hlt
            linarith
          have : (0 : ℚ) ≤ 50000 / d := by positivity
          simp only [if_neg hlt]
          exact Int.floor_nonneg.mpr this
    have t1 : (0 : Int) ≤ (if node0.node_type = GEOWORD ∧ node1.node_type = GEOWORD ∧
        neClassD node0 = neClassD node1 then 10 else 0) := by positivity
    have t2 : (0 : Int) ≤ (if node0.node_type = GEOWORD ∧
        interNonempty (hypernymsOf node0) (get_notations node1) then 5 else 0) := by positivity
    have t3 : (0 : Int) ≤ (if node1.node_type = GEOWORD ∧
        interNonempty (hypernymsOf node1) (get_notations node0) then 5 else 0) := by positivity
    have t4 : (0 : Int) ≤ (if node0.node_type = GEOWORD ∧ hypernymsOf node0 ≠ [] ∧
        node1.node_type = GEOWORD ∧ hypernymsOf node1 ≠ [] ∧
        interNonempty (hypernymsOf node0) (hypernymsOf node1) then 5 else 0) := by positivity
    omega

theorem getBest_ne (dist : PNode → PNode → Option ℚ)
    (nodes hints : List PNode) (h : nodes ≠ []) :
    getBest dist nodes hints ≠ [] := by
  have hkeep : ∀ (l : List (PNode × Int)) (st : List PNode × Int), st.1 ≠ [] →
      (l.foldl (fun (st : List PNode × Int) p =>
        if p.2 > st.2 then ([p.1], p.2)
        else if p.2 = st.2 then (st.1 ++ [p.1], st.2)
        else st) st).1 ≠ [] := by
    intro l
    induction l with
    | nil => intro st hst; exact hst
    | cons p rest ih =>
      intro st hst
      simp only [List.foldl_cons]
      apply ih
      by_cases h1 : p.2 > st.2
      · simp [h1]
      · by_cases h2 : p.2 = st.2
        · simp only [if_neg h1, if_pos h2]
          simp
        · simpa [h1, h2] using hst
  rcases nodes with _ | ⟨n0, rest⟩
  · exact absurd rfl h
  · unfold getBest
    simp only [List.map_cons, List.foldl_cons]
    set s0 : Int := ((hints.map (fun h => node_relation_score dist n0 h)).sum) with hs0
    have hnn : 0 ≤ s0 := by
      rw [hs0]
      apply List.sum_nonneg
      intro x hx
      rcases List.mem_map.mp hx with ⟨y, _, rfl⟩
      exact node_relation_score_nonneg dist n0 y
    apply hkeep
    by_cases hpos : s0 > 0
    · simp [hpos]
    · have hz : s0 = 0 := le_antisymm (not_lt.mp hpos) hnn
      simp [hz]

theorem dtLoopAux_ne (dist : PNode → PNode → Option ℚ)
    (pile : List (Nat × List PNode)) (row : List PNode) (pidx : Nat)
    (hrow : row ≠ []) :
    ∀ (fuel dt : Nat) (best : List PNode), best ≠ [] →
      dtLoopAux dist pile row pidx fuel dt best ≠ [] := by
  intro fuel
  induction fuel with
  | zero => intro dt best hb; simpa [dtLoopAux] using hb
  | succ fuel ih =>
    intro dt best hb
    unfold dtLoopAux
    by_cases hdt : dt < pile.length
    · simp only [if_pos hdt]
      set b1 := (if dt ≤ pidx then getBest dist row (pile.getD (pidx - dt) (0, [])).2
          else best) with hb1def
      have hb1 : b1 ≠ [] := by
        rw [hb1def]
        by_cases hle : dt ≤ pidx
        · simpa [hle] using getBest_ne dist row _ hrow
        · simpa [hle] using hb
      set b2 := (if pidx + dt < pile.length then
          getBest dist row (pile.getD (pidx + dt) (0, [])).2 else b1) with hb2def
      have hb2 : b2 ≠ [] := by
        rw [hb2def]
        by_cases hlt : pidx + dt < pile.length
        · simpa [hlt] using getBest_ne dist row _ hrow
        · simpa [hlt] using hb1
      by_cases hc1 : dt ≤ pidx ∧ b1.length = 1
      · simp only [if_pos hc1]
        exact hb1
      · simp only [if_neg hc1]
        by_cases hc2 : pidx + dt < pile.length ∧ b2.length = 1
        · simp only [if_pos hc2]
          exact hb2
        · simp only [if_neg hc2]
          exact ih (dt + 1) b2 hb2
    · simpa [hdt] using hb

theorem greedyAux_shape (dist : PNode → PNode → Option ℚ) (input : Lattice)
    (pile : List (Nat × List PNode)) (hne : ∀ c ∈ input, c ≠ []) :
    ∀ (fuel i pidx : Nat), input.length - i ≤ fuel →
      (greedyAux dist input pile fuel i pidx).length = input.length - i
      ∧ ∀ c ∈ greedyAux dist input pile fuel i pidx, c ≠ [] := by
  intro fuel
  induction fuel with
  | zero =>
    intro i pidx hfuel
    constructor
    · simp [greedyAux]; omega
    · intro c hc; simp [greedyAux] at hc
  | succ fuel ih =>
    intro i pidx hfuel
    by_cases hi : i < input.length
    · have hrowmem : input.getD i [] ∈ input := by
        rw [List.getD_eq_getElem?_getD, List.getElem?_eq_getElem hi]
        exact List.getElem_mem hi
      have hrow : input.getD i [] ≠ [] := hne _ hrowmem
      have hfuel' : input.length - (i + 1) ≤ fuel := by omega
      have hlen : ∀ l : Lattice, l.length = input.length - (i + 1) →
          (l.length + 1 = input.length - i) := by omega
      unfold greedyAux
      simp only [if_pos hi]
      by_cases hb1 : pidx = pile.length ∨ i < (pile.getD pidx (0, [])).1
      · rcases ih (i + 1) pidx hfuel' with ⟨hl, hm⟩
        simp only [if_pos hb1]
        refine ⟨by simpa using hlen _ hl, ?_⟩
        intro c hc
        rcases List.mem_cons.mp hc with rfl | hc
        · exact hrow
        · exact hm c hc
      · simp only [if_neg hb1]
        by_cases hsingle : (input.getD i []).length = 1
        · rcases ih (i + 1) (pidx + 1) hfuel' with ⟨hl, hm⟩
          simp only [if_pos hsingle]
          refine ⟨by simpa using hlen _ hl, ?_⟩
          intro c hc
          rcases List.mem_cons.mp hc with rfl | hc
          · exact hrow
          · exact hm c hc
        · rcases ih (i + 1) (pidx + 1) hfuel' with ⟨hl, hm⟩
          simp only [if_neg hsingle]
          refine ⟨by simpa using hlen _ hl, ?_⟩
          intro c hc
          rcases List.mem_cons.mp hc with rfl | hc
          · exact dtLoopAux_ne dist pile _ pidx hrow pile.length 1 _ hrow
          · exact hm c hc
    · constructor
      · simp [greedyAux, hi]; omega
      · intro c hc; simp [greedyAux, hi] at hc

/-- C8: every filter preserves the lattice shape.  Part 1: the shared
`Filter.apply` (used by the entity-class, spatial and temporal filters),
under either `return_all` or `convert_to_normal`, returns a lattice with
the same number of positions, each holding a non-empty candidate list.
Part 2: the same for `GreedySearchFilter.apply` with the default scorer
(whose relation scores are non-negative, so `_get_best` never empties a
row). -/
theorem C8_filters_preserve_shape :
    (∀ (ff : PNode → Bool) (waf : WAF) (input : Lattice),
      (∀ c ∈ input, c ≠ []) →
      (filterApply ff waf input).2.length = input.length
      ∧ ∀ c ∈ (filterApply ff waf input).2, c ≠ [])
    ∧ (∀ (dist : PNode → PNode → Option ℚ) (input : Lattice),
      (∀ c ∈ input, c ≠ []) →
      (greedyApply dist input).length = input.length
      ∧ ∀ c ∈ greedyApply dist input, c ≠ []) := by
  constructor
  · intro ff waf input hne
    constructor
    · simp [filterApply]
    · intro c hc
      simp only [filterApply, List.mem_map] at hc
      rcases hc with ⟨cands, hmem, rfl⟩
      have hcne := hne cands hmem
      unfold applyPos
      by_cases hf : apply_filter ff none cands ≠ []
      · simp [hf]
      · simp only [if_neg hf]
        cases waf with
        | return_all => simpa using hcne
        | convert_to_normal =>
          cases hfind : cands.find? (fun nd => nd.node_type = NORMAL) with
          | some nd => simp [hfind]
          | none =>
            rcases cands with _ | ⟨c0, rest⟩
            · exact absurd rfl hcne
            · simp [hfind]
  · intro dist input hne
    have := greedyAux_shape dist input (geowordsPile input) hne
      input.length 0 0 (by omega)
    unfold greedyApply
    rcases this with ⟨hl, hm⟩
    exact ⟨by simpa using hl, hm⟩

/-- C8 witness: both parts applied to the concrete one-position lattice
`latC2`. -/
theorem C8_witness :
    ((filterApply (entityFilterFunc cityMatch) WAF.convert_to_normal latC2).2.length
        = latC2.length
      ∧ ∀ c ∈ (filterApply (entityFilterFunc cityMatch) WAF.convert_to_normal latC2).2,
        c ≠ [])
    ∧ ((greedyApply dist0 latC2).length = latC2.length
      ∧ ∀ c ∈ greedyApply dist0 latC2, c ≠ []) :=
  ⟨C8_filters_preserve_shape.1 (entityFilterFunc cityMatch) WAF.convert_to_normal latC2
      (by intro c hc; simp [latC2] at hc; simp [hc]),
   C8_filters_preserve_shape.2 dist0 latC2
      (by intro c hc; simp [latC2] at hc; simp [hc])⟩

/-! ## C9 — lattice chunking -/

theorem findSplit_bounds (lattice : Lattice) (a b : Nat) (p : PNode → Bool)
    (i : Nat) (h : findSplit lattice a b p = some i) :
    a ≤ i ∧ i < b - 1 := by
  have hmem : i ∈ List.range' a (b - 1 - a) := by
    have := List.mem_of_find?_eq_some h
    exact this
  have := List.mem_range'_1.mp hmem
  omega

theorem halveAux_bounds (lattice : Lattice) (a b : Nat) :
    ∀ (fuel i j : Nat), a ≤ i →
      halveAux lattice a b fuel i = some j →
      a + (b - a) / 2 ≤ j ∧ j < b - 1 ∧ a ≤ j := by
  intro fuel
  induction fuel with
  | zero => intro i j _ h; simp [halveAux] at h
  | succ fuel ih =>
    intro i j hai h
    unfold halveAux at h
    by_cases hi : i < b - 1
    · simp only [if_pos hi] at h
      by_cases hmid : a + (b - a) / 2 ≤ i
      · simp only [if_pos hmid] at h
        obtain rfl := Option.some.inj h
        exact ⟨hmid, hi, hai⟩
      · simp only [if_neg hmid] at h
        exact ih _ j (by omega) h
    · simp [if_neg hi] at h

theorem chunkerNewTo_bounds (lattice : Lattice) (a b : Nat) (hab : a ≤ b) :
    a ≤ chunkerNewTo lattice a b ∧ chunkerNewTo lattice a b ≤ b := by
  unfold chunkerNewTo
  split
  next i h1 => have := findSplit_bounds lattice a b _ i h1; omega
  next h1 =>
    split
    next i h2 => have := findSplit_bounds lattice a b _ i h2; omega
    next h2 =>
      split
      next i h3 => have := findSplit_bounds lattice a b _ i h3; omega
      next h3 =>
        split
        next i h4 => have := findSplit_bounds lattice a b _ i h4; omega
        next h4 =>
          split
          next i h5 =>
            have := halveAux_bounds lattice a b (b + 1) a i le_rfl h5
            omega
          next h5 => omega

theorem chunkerRun_sound (lattice : Lattice) :
    ∀ (fuel a b : Nat) (chunks : List Lattice), a ≤ b → b ≤ lattice.length →
      chunkerRun lattice fuel a b = some chunks →
      chunks.flatten = lattice.drop a
      ∧ ∀ part ∈ chunks, count_combinations part < MAX_COMBINATIONS := by
  intro fuel
  induction fuel with
  | zero => intro a b chunks _ _ h; simp [chunkerRun] at h
  | succ fuel ih =>
    intro a b chunks hab hb h
    unfold chunkerRun at h
    by_cases ha : a < lattice.length
    · simp only [if_pos ha] at h
      by_cases hcnt : count_combinations ((lattice.drop a).take (b - a)) < MAX_COMBINATIONS
      · simp only [if_pos hcnt] at h
        cases hrec : chunkerRun lattice fuel b lattice.length with
        | none => rw [hrec] at h; exact absurd h (by simp)
        | some rest =>
          rw [hrec] at h
          rcases Option.some.injEq _ _ ▸ h with rfl
          rcases ih b lattice.length rest hb le_rfl hrec with ⟨hjoin, hparts⟩
          constructor
          · simp only [List.flatten_cons]
            rw [hjoin]
            have : (lattice.drop a).drop (b - a) = lattice.drop b := by
              rw [List.drop_drop]
              congr 1
              omega
            calc (lattice.drop a).take (b - a) ++ lattice.drop b
                = (lattice.drop a).take (b - a) ++ (lattice.drop a).drop (b - a) := by
                  rw [this]
              _ = lattice.drop a := List.take_append_drop _ _
          · intro part hp
            rcases List.mem_cons.mp hp with rfl | hp
            · exact hcnt
            · exact hparts part hp
      · simp only [if_neg hcnt] at h
        have hbd := chunkerNewTo_bounds lattice a b hab
        exact ih a (chunkerNewTo lattice a b) chunks hbd.1 (le_trans hbd.2 hb) h
    · simp only [if_neg ha] at h
      rcases Option.some.injEq _ _ ▸ h with rfl
      constructor
      · have : lattice.length ≤ a := le_of_not_lt ha
        simp [List.drop_eq_nil_of_le this]
      · intro part hp; simp at hp

/-- C9 amended: whenever the chunk generator
`get_processible_lattice_part` terminates (`chunkerRun` finishes within
some number of outer-loop iterations), the yielded chunks are consecutive,
non-overlapping slices whose concatenation is exactly the input lattice,
and a window whose combination count is at or above `MAX_COMBINATIONS` is
split and never yielded (every yielded chunk has count below the bound).
On a window that can neither be emitted nor split — e.g. a single position
holding `MAX_COMBINATIONS` candidates — the source loops forever and
yields nothing. -/
theorem C9_amended (lattice : Lattice) (fuel : Nat) (chunks : List Lattice)
    (h : chunker lattice fuel = some chunks) :
    chunks.flatten = lattice
    ∧ ∀ part ∈ chunks, count_combinations part < MAX_COMBINATIONS := by
  have := chunkerRun_sound lattice fuel 0 lattice.length chunks
    (Nat.zero_le _) le_rfl h
  simpa using this

/-- A lattice with one position holding 256 identical geoword candidates. -/
def lat256 : Lattice := [List.replicate 256 (gw "a" "市区町村")]

set_option maxRecDepth 4000 in
theorem lat256_chunker_stuck : ∀ fuel, chunkerRun lat256 fuel 0 1 = none := by
  intro fuel
  induction fuel with
  | zero => rfl
  | succ fuel ih =>
    unfold chunkerRun
    have h1 : (0 : Nat) < lat256.length := by decide
    have hcnt : ¬ count_combinations ((lat256.drop 0).take 1) < MAX_COMBINATIONS := by decide
    have hnt : chunkerNewTo lat256 0 1 = 1 := by decide
    simp only [if_pos h1, if_neg hcnt, hnt]
    exact ih

/-- C9 counterexample: on the lattice with a single position of 256
candidates, the remaining window's combination count is at (hence at or
above) `max_combinations`, yet the split step makes no progress
(`chunkerNewTo` returns the window unchanged: no punctuation, symbol or
midpoint split exists in a one-position window), so the generator loops
forever and never yields — the yielded chunks do not cover the lattice. -/
theorem C9_counterexample :
    MAX_COMBINATIONS ≤ count_combinations lat256
    ∧ chunkerNewTo lat256 0 1 = 1
    ∧ chunker lat256 1000000 = none
    ∧ lat256 ≠ [] := by
  refine ⟨?_, ?_, lat256_chunker_stuck 1000000, ?_⟩
  · set_option maxRecDepth 4000 in decide
  · set_option maxRecDepth 4000 in decide
  · decide

/-- A one-position lattice on which the chunker succeeds. -/
def lat1 : Lattice := [[gw "a" "c1"]]

/-- C9 witness: the amended theorem applied to `lat1`, on which the
generator terminates in two iterations yielding the single chunk. -/
theorem C9_amended_witness :
    ([lat1] : List Lattice).flatten = lat1
    ∧ ∀ part ∈ ([lat1] : List Lattice), count_combinations part < MAX_COMBINATIONS :=
  C9_amended lat1 2 [lat1] (by rfl)

/-! ## C10 — termination and emission bound of the `LinkedResults`
iterator.

The counter vector, read in mixed radix with the candidate counts as
digits, strictly increases on every `increment_counter` call that does not
set the exhaustion flag; the emission count is therefore bounded by the
product of the candidate counts. -/

theorem headD_eq_getD (l : List Int) (d : Int) : l.headD d = l.getD 0 d := by
  cases l <;> rfl

theorem getD_set_eq (l : List Int) (p : Nat) (v : Int) (h : p < l.length) :
    (l.set p v).getD p 0 = v := by
  induction l generalizing p with
  | nil => simp at h
  | cons x xs ih =>
    cases p with
    | zero => rfl
    | succ p => simpa using ih p (by simpa using h)

theorem getD_set_ne (l : List Int) (p q : Nat) (v : Int) (h : p ≠ q) :
    (l.set p v).getD q 0 = l.getD q 0 := by
  induction l generalizing p q with
  | nil => simp
  | cons x xs ih =>
    cases p with
    | zero =>
      cases q with
      | zero => exact absurd rfl h
      | succ q => rfl
    | succ p =>
      cases q with
      | zero => rfl
      | succ q => simpa using ih p q (by omega)

/-- The counter-range invariant of `LinkedResults`: one counter per
position, each pointing at an existing candidate. -/
def ValidCs (lattice : Lattice) (cs : List Int) : Prop :=
  cs.length = lattice.length ∧
  ∀ i, i < lattice.length →
    0 ≤ cs.getD i 0 ∧ cs.getD i 0 < ((lattice.getD i []).length : Int)

/-- The mixed-radix weight of position `i`: the product of the candidate
counts of all later positions. -/
def wt (lattice : Lattice) (i : Nat) : Nat :=
  ((lattice.map List.length).drop (i + 1)).prod

/-- The candidate count of position `i`. -/
def lenAt (lattice : Lattice) (i : Nat) : Nat :=
  (lattice.getD i []).length

/-- The counter vector read as a mixed-radix number. -/
def csRank (lattice : Lattice) (cs : List Int) : Nat :=
  ∑ i ∈ Finset.range lattice.length, (cs.getD i 0).toNat * wt lattice i

theorem lenAt_pos (lattice : Lattice) (hne : ∀ c ∈ lattice, c ≠ [])
    (i : Nat) (hi : i < lattice.length) : 0 < lenAt lattice i := by
  have hmem : lattice.getD i [] ∈ lattice := by
    rw [List.getD_eq_getElem?_getD, List.getElem?_eq_getElem hi]
    exact List.getElem_mem hi
  have := hne _ hmem
  simpa [lenAt, List.length_pos] using this

theorem wt_pos (lattice : Lattice) (hne : ∀ c ∈ lattice, c ≠ [])
    (i : Nat) : 0 < wt lattice i := by
  apply List.prod_pos
  intro x hx
  have hx' : x ∈ lattice.map List.length := List.mem_of_mem_drop hx
  rcases List.mem_map.mp hx' with ⟨c, hc, rfl⟩
  have := hne c hc
  simpa [List.length_pos] using this

theorem prodFrom_succ (lattice : Lattice) (i : Nat) (hi : i < lattice.length) :
    ((lattice.map List.length).drop i).prod = lenAt lattice i * wt lattice i := by
  have hlen : i < (lattice.map List.length).length := by simpa using hi
  rw [List.drop_eq_getElem_cons hlen, List.prod_cons]
  congr 1
  simp only [List.getElem_map]
  rw [lenAt, List.getD_eq_getElem?_getD, List.getElem?_eq_getElem hi]
  rfl

theorem telescope_sum (lattice : Lattice) (hne : ∀ c ∈ lattice, c ≠ []) :
    ∀ (d i : Nat), i + d = lattice.length →
      ∑ j ∈ Finset.Ico i lattice.length, (lenAt lattice j - 1) * wt lattice j
        = ((lattice.map List.length).drop i).prod - 1 := by
  intro d
  induction d with
  | zero =>
    intro i hi
    have hieq : i = lattice.length := by omega
    subst hieq
    have hd : (lattice.map List.length).drop lattice.length = [] :=
      List.drop_eq_nil_of_le (by simp)
    rw [hd]
    simp
  | succ d ih =>
    intro i hi
    have hilt : i < lattice.length := by omega
    rw [Finset.sum_eq_sum_Ico_succ_bot hilt, ih (i + 1) (by omega),
      prodFrom_succ lattice i hilt]
    have hwt : ((lattice.map List.length).drop (i + 1)).prod = wt lattice i := rfl
    rw [hwt]
    have hk : 0 < lenAt lattice i := lenAt_pos lattice hne i hilt
    have hw : 0 < wt lattice i := wt_pos lattice hne i
    rcases Nat.exists_eq_add_of_lt hk with ⟨k, hk'⟩
    have hk2 : lenAt lattice i = k + 1 := by omega
    rw [hk2]
    have hmul : (k + 1) * wt lattice i = k * wt lattice i + wt lattice i := by ring
    rw [Nat.add_sub_cancel, hmul]
    generalize k * wt lattice i = B
    omega

theorem csRank_lt_prod (lattice : Lattice) (hne : ∀ c ∈ lattice, c ≠ [])
    (cs : List Int) (hv : ValidCs lattice cs) :
    csRank lattice cs < prodLens lattice := by
  have hbound : csRank lattice cs ≤
      ∑ j ∈ Finset.Ico 0 lattice.length, (lenAt lattice j - 1) * wt lattice j := by
    rw [csRank, Finset.range_eq_Ico]
    apply Finset.sum_le_sum
    intro i hi
    have hi' : i < lattice.length := (Finset.mem_Ico.mp hi).2
    have h1 := (hv.2 i hi').1
    have h2 := (hv.2 i hi').2
    have : (cs.getD i 0).toNat ≤ lenAt lattice i - 1 := by
      have hp := lenAt_pos lattice hne i hi'
      simp only [lenAt] at hp ⊢
      omega
    exact Nat.mul_le_mul_right _ this
  have htel := telescope_sum lattice hne lattice.length 0 (by omega)
  have hprod : ((lattice.map List.length).drop 0).prod = prodLens lattice := by
    simp [prodLens]
  rw [htel, hprod] at hbound
  have hpos : 0 < prodLens lattice := by
    apply List.prod_pos
    intro x hx
    rcases List.mem_map.mp hx with ⟨c, hc, rfl⟩
    simpa [List.length_pos] using hne c hc
  omega

/-- Additive form of the rank change under a single counter update. -/
theorem csRank_set (lattice : Lattice) (cs : List Int) (p : Nat) (v : Int)
    (hp : p < lattice.length) (hlen : p < cs.length) :
    csRank lattice (cs.set p v) + (cs.getD p 0).toNat * wt lattice p
      = csRank lattice cs + v.toNat * wt lattice p := by
  have hmem : p ∈ Finset.range lattice.length := Finset.mem_range.mpr hp
  have hL : csRank lattice (cs.set p v)
      = (∑ i ∈ (Finset.range lattice.length).erase p,
          ((cs.set p v).getD i 0).toNat * wt lattice i)
        + ((cs.set p v).getD p 0).toNat * wt lattice p := by
    rw [csRank, ← Finset.sum_erase_add _ _ hmem]
  have hR : csRank lattice cs
      = (∑ i ∈ (Finset.range lattice.length).erase p,
          (cs.getD i 0).toNat * wt lattice i)
        + (cs.getD p 0).toNat * wt lattice p := by
    rw [csRank, ← Finset.sum_erase_add _ _ hmem]
  have hsame : ∑ i ∈ (Finset.range lattice.length).erase p,
      ((cs.set p v).getD i 0).toNat * wt lattice i
      = ∑ i ∈ (Finset.range lattice.length).erase p,
        (cs.getD i 0).toNat * wt lattice i := by
    apply Finset.sum_congr rfl
    intro i hi
    have hne : p ≠ i := fun h => (Finset.mem_erase.mp hi).1 h.symm
    rw [getD_set_ne cs p i v hne]
  rw [hL, hR, hsame, getD_set_eq cs p v hlen]
  ring

/-- The counters with every position of `Q` reset to 0 (the carry loop's
resets). -/
def zeroAll (Q : List Nat) (cs : List Int) : List Int :=
  Q.foldl (fun c q => c.set q 0) cs

theorem zeroAll_cons (q : Nat) (Q : List Nat) (cs : List Int) :
    zeroAll (q :: Q) cs = zeroAll Q (cs.set q 0) := rfl

theorem length_zeroAll (Q : List Nat) (cs : List Int) :
    (zeroAll Q cs).length = cs.length := by
  induction Q generalizing cs with
  | nil => rfl
  | cons q Q ih => rw [zeroAll_cons, ih, List.length_set]

theorem getD_zeroAll_notMem (Q : List Nat) (cs : List Int) (p : Nat)
    (h : p ∉ Q) : (zeroAll Q cs).getD p 0 = cs.getD p 0 := by
  induction Q generalizing cs with
  | nil => rfl
  | cons q Q ih =>
    rw [zeroAll_cons, ih _ (fun hm => h (List.mem_cons_of_mem q hm)),
      getD_set_ne cs q p 0 (fun hqp => h (hqp ▸ List.mem_cons_self q Q))]

theorem valid_set (lattice : Lattice) (cs : List Int) (p : Nat) (v : Int)
    (hv : ValidCs lattice cs) (h0 : 0 ≤ v)
    (h1 : v < ((lattice.getD p []).length : Int)) :
    ValidCs lattice (cs.set p v) := by
  refine ⟨by rw [List.length_set]; exact hv.1, ?_⟩
  intro i hi
  by_cases hpi : p = i
  · subst hpi
    by_cases hplen : p < cs.length
    · rw [getD_set_eq cs p v hplen]
      exact ⟨h0, h1⟩
    · have : cs.length ≤ p := le_of_not_lt hplen
      have : lattice.length ≤ p := hv.1 ▸ this
      omega
  · rw [getD_set_ne cs p i v hpi]
    exact hv.2 i hi

theorem valid_zeroAll (lattice : Lattice) (hne : ∀ c ∈ lattice, c ≠ [])
    (Q : List Nat) (cs : List Int) (hv : ValidCs lattice cs) :
    ValidCs lattice (zeroAll Q cs) := by
  induction Q generalizing cs with
  | nil => exact hv
  | cons q Q ih =>
    rw [zeroAll_cons]
    apply ih
    by_cases hq : q < lattice.length
    · exact valid_set lattice cs q 0 hv le_rfl
        (by exact_mod_cast lenAt_pos lattice hne q hq)
    · refine ⟨by rw [List.length_set]; exact hv.1, ?_⟩
      intro i hi
      have hqi : q ≠ i := by omega
      rw [getD_set_ne cs q i 0 hqi]
      exact hv.2 i hi

theorem rank_zeroAll (lattice : Lattice) (Q : List Nat) (cs : List Int)
    (hQ : ∀ q ∈ Q, q < lattice.length) (hnd : Q.Nodup)
    (hcs : cs.length = lattice.length) :
    csRank lattice (zeroAll Q cs)
      + (Q.map (fun q => (cs.getD q 0).toNat * wt lattice q)).sum
      = csRank lattice cs := by
  induction Q generalizing cs with
  | nil => simp [zeroAll]
  | cons q Q ih =>
    rw [zeroAll_cons]
    have hqlt : q < lattice.length := hQ q (List.mem_cons_self q Q)
    have hqcs : q < cs.length := by omega
    have hnotmem : q ∉ Q := (List.nodup_cons.mp hnd).1
    have hIH := ih (cs.set q 0)
      (fun q' hq' => hQ q' (List.mem_cons_of_mem q hq'))
      (List.nodup_cons.mp hnd).2
      (by rw [List.length_set]; exact hcs)
    have hmap : (Q.map (fun q' => ((cs.set q 0).getD q' 0).toNat * wt lattice q')).sum
        = (Q.map (fun q' => (cs.getD q' 0).toNat * wt lattice q')).sum := by
      congr 1
      apply List.map_congr_left
      intro q' hq'
      have hne' : q ≠ q' := fun h => hnotmem (h ▸ hq')
      rw [getD_set_ne cs q q' 0 hne']
    rw [hmap] at hIH
    have hset := csRank_set lattice cs q 0 hqlt hqcs
    simp only [Int.toNat_zero, Nat.zero_mul, Nat.add_zero] at hset
    simp only [List.map_cons, List.sum_cons]
    omega

theorem carryLoop_cases (lattice : Lattice) :
    ∀ (Q : List Nat) (cs : List Int), Q.Nodup →
      carryLoop lattice Q cs = (zeroAll Q cs).set 0 (-1)
      ∨ ∃ Q₁ p Q₂, Q = Q₁ ++ p :: Q₂
          ∧ cs.getD p 0 + 1 < ((lattice.getD p []).length : Int)
          ∧ carryLoop lattice Q cs = (zeroAll Q₁ cs).set p (cs.getD p 0 + 1) := by
  have carryLoop_cons : ∀ (q : Nat) (Q : List Nat) (cs : List Int),
      carryLoop lattice (q :: Q) cs =
        if cs.getD q 0 + 1 < ((lattice.getD q []).length : Int) then
          cs.set q (cs.getD q 0 + 1)
        else carryLoop lattice Q (cs.set q 0) := by
    intro q Q cs; rfl
  intro Q
  induction Q with
  | nil => intro cs _; left; rfl
  | cons q Q ih =>
    intro cs hnd
    rw [carryLoop_cons]
    by_cases hlt : cs.getD q 0 + 1 < ((lattice.getD q []).length : Int)
    · rw [if_pos hlt]
      right
      exact ⟨[], q, Q, rfl, hlt, rfl⟩
    · rw [if_neg hlt]
      rcases ih (cs.set q 0) (List.nodup_cons.mp hnd).2 with hleft | ⟨Q₁, p, Q₂, heq, hplt, hres⟩
      · left
        rw [zeroAll_cons]
        exact hleft
      · right
        have hpmem : p ∈ Q := by rw [heq]; simp
        have hqp : q ≠ p := fun h => (List.nodup_cons.mp hnd).1 (h ▸ hpmem)
        rw [getD_set_ne cs q p 0 hqp] at hplt hres
        exact ⟨q :: Q₁, p, Q₂, by rw [heq, List.cons_append], hplt,
          by rw [zeroAll_cons]; exact hres⟩

theorem latRow_mem (lattice : Lattice) (pos : Nat) (h : pos < lattice.length) :
    lattice.getD pos [] ∈ lattice := by
  rw [List.getD_eq_getElem?_getD, List.getElem?_eq_getElem h]
  exact List.getElem_mem h

theorem selNode_cases (lattice : Lattice) (cs : List Int) (pos : Nat) :
    selNode lattice cs pos ∈ lattice.getD pos []
    ∨ selNode lattice cs pos = default := by
  unfold selNode
  set row := lattice.getD pos [] with hrow
  by_cases h : (cs.getD pos 0).toNat < row.length
  · left
    rw [List.getD_eq_getElem?_getD, List.getElem?_eq_getElem h]
    exact List.getElem_mem h
  · right
    rw [List.getD_eq_getElem?_getD, List.getElem?_eq_none (by omega)]
    rfl

theorem incPositionsAux_props (lattice : Lattice) (cs : List Int)
    (haddr : ∀ row ∈ lattice, ∀ nd ∈ row, nd.node_type = ADDRESS →
      1 ≤ morphLen nd.morphemes) :
    ∀ (fuel pos : Nat),
      List.Pairwise (· < ·) (incPositionsAux lattice cs fuel pos)
      ∧ ∀ q ∈ incPositionsAux lattice cs fuel pos, pos ≤ q ∧ q < lattice.length := by
  intro fuel
  induction fuel with
  | zero =>
    intro pos
    constructor
    · simp [incPositionsAux]
    · intro q hq; simp [incPositionsAux] at hq
  | succ fuel ih =>
    intro pos
    unfold incPositionsAux
    by_cases hpos : pos < lattice.length
    · simp only [if_pos hpos]
      by_cases haddr' : (selNode lattice cs pos).node_type = ADDRESS
      · simp only [if_pos haddr']
        have hw : 1 ≤ morphLen (selNode lattice cs pos).morphemes := by
          rcases selNode_cases lattice cs pos with hmem | hdef
          · exact haddr _ (latRow_mem lattice pos hpos) _ hmem haddr'
          · rw [hdef] at haddr'
            simp [default, ADDRESS] at haddr'
        set nxt := if hasNonAddress lattice pos = true then
            pos + morphLen (selNode lattice cs pos).morphemes else pos + 1 with hnxt
        have hnxtgt : pos < nxt := by
          rw [hnxt]
          by_cases hna : hasNonAddress lattice pos = true
          · simp only [if_pos hna]; omega
          · simp only [if_neg hna]; omega
        rcases ih nxt with ⟨hpw, hmem⟩
        constructor
        · exact List.Pairwise.cons
            (fun q hq => lt_of_lt_of_le hnxtgt (hmem q hq).1) hpw
        · intro q hq
          rcases List.mem_cons.mp hq with rfl | hq
          · exact ⟨le_rfl, hpos⟩
          · exact ⟨le_trans (le_of_lt hnxtgt) (hmem q hq).1, (hmem q hq).2⟩
      · simp only [if_neg haddr']
        by_cases hgeo : (selNode lattice cs pos).node_type = GEOWORD
        · simp only [if_pos hgeo]
          rcases ih (pos + 1) with ⟨hpw, hmem⟩
          constructor
          · exact List.Pairwise.cons
              (fun q hq => lt_of_lt_of_le (by omega) (hmem q hq).1) hpw
          · intro q hq
            rcases List.mem_cons.mp hq with rfl | hq
            · exact ⟨le_rfl, hpos⟩
            · exact ⟨by have := (hmem q hq).1; omega, (hmem q hq).2⟩
        · simp only [if_neg hgeo]
          rcases ih (pos + 1) with ⟨hpw, hmem⟩
          refine ⟨hpw, ?_⟩
          intro q hq
          exact ⟨by have := (hmem q hq).1; omega, (hmem q hq).2⟩
    · simp only [if_neg hpos]
      constructor
      · simp
      · intro q hq; simp at hq

theorem list_sum_le_finset (f : Nat → Nat) :
    ∀ (Q : List Nat) (s : Finset Nat), Q.Nodup → (∀ q ∈ Q, q ∈ s) →
      (Q.map f).sum ≤ ∑ j ∈ s, f j := by
  intro Q
  induction Q with
  | nil => intro s _ _; simp
  | cons q Q ih =>
    intro s hnd hsub
    have hq : q ∈ s := hsub q (List.mem_cons_self q Q)
    have hsub' : ∀ q' ∈ Q, q' ∈ s.erase q := by
      intro q' hq'
      refine Finset.mem_erase.mpr ⟨?_, hsub q' (List.mem_cons_of_mem q hq')⟩
      exact fun h => (List.nodup_cons.mp hnd).1 (h ▸ hq')
    have := ih (s.erase q) (List.nodup_cons.mp hnd).2 hsub'
    calc ((q :: Q).map f).sum = f q + (Q.map f).sum := by simp
    _ ≤ f q + ∑ j ∈ s.erase q, f j := by omega
    _ = ∑ j ∈ s, f j := Finset.add_sum_erase s f hq

theorem increment_spec (lattice : Lattice)
    (hlen : 0 < lattice.length) (hne : ∀ c ∈ lattice, c ≠ [])
    (haddr : ∀ row ∈ lattice, ∀ nd ∈ row, nd.node_type = ADDRESS →
      1 ≤ morphLen nd.morphemes)
    (cs : List Int) (hv : ValidCs lattice cs) :
    exhausted (increment_counter lattice cs) = true
    ∨ (ValidCs lattice (increment_counter lattice cs)
       ∧ csRank lattice cs < csRank lattice (increment_counter lattice cs)) := by
  have hprops := incPositionsAux_props lattice cs haddr lattice.length 0
  set P := incPositions lattice cs with hP
  have hPpw : List.Pairwise (· < ·) P := hprops.1
  have hPmem : ∀ q ∈ P, q < lattice.length := fun q hq => (hprops.2 q hq).2
  have hQpw : List.Pairwise (· > ·) P.reverse := by
    rw [List.pairwise_reverse]
    exact hPpw
  have hQnd : P.reverse.Nodup :=
    List.Pairwise.imp (fun h => ne_of_gt h) hQpw
  have hQmem : ∀ q ∈ P.reverse, q < lattice.length := by
    intro q hq
    exact hPmem q (List.mem_reverse.mp hq)
  rcases carryLoop_cases lattice P.reverse cs hQnd with hleft | ⟨Q₁, p, Q₂, heq, hplt, hres⟩
  · left
    have hincr : increment_counter lattice cs = (zeroAll P.reverse cs).set 0 (-1) := hleft
    rw [exhausted, hincr, headD_eq_getD, getD_set_eq]
    · simp
    · rw [length_zeroAll, hv.1]
      omega
  · right
    have hincr : increment_counter lattice cs
        = (zeroAll Q₁ cs).set p (cs.getD p 0 + 1) := hres
    have hpmem : p ∈ P.reverse := by rw [heq]; simp
    have hplen : p < lattice.length := hQmem p hpmem
    have hQ₁sub : ∀ q ∈ Q₁, q ∈ P.reverse := by
      intro q hq; rw [heq]; exact List.mem_append_left _ hq
    have hQ₁lt : ∀ q ∈ Q₁, p < q := by
      intro q hq
      have := (List.pairwise_append.mp (heq ▸ hQpw)).2.2
      exact this q hq p (List.mem_cons_self p Q₂)
    have hQ₁nd : Q₁.Nodup := ((heq ▸ hQnd).of_append_left)
    have hpnotmem : p ∉ Q₁ := fun hmem => lt_irrefl p (hQ₁lt p hmem)
    have hcslen : cs.length = lattice.length := hv.1
    have hZvalid : ValidCs lattice (zeroAll Q₁ cs) :=
      valid_zeroAll lattice hne Q₁ cs hv
    have hplenZ : p < (zeroAll Q₁ cs).length := by
      rw [length_zeroAll]; omega
    have hvp := hv.2 p hplen
    constructor
    · rw [hincr]
      exact valid_set lattice _ p _ hZvalid (by omega) hplt
    · -- rank computation
      have hE1 := csRank_set lattice (zeroAll Q₁ cs) p (cs.getD p 0 + 1) hplen hplenZ
      have hZp : (zeroAll Q₁ cs).getD p 0 = cs.getD p 0 :=
        getD_zeroAll_notMem Q₁ cs p hpnotmem
      rw [hZp] at hE1
      have hE2 := rank_zeroAll lattice Q₁ cs
        (fun q hq => hQmem q (hQ₁sub q hq)) hQ₁nd hcslen
      -- the reset sum is bounded by wt p - 1
      set S := (Q₁.map (fun q => (cs.getD q 0).toNat * wt lattice q)).sum with hS
      have hSle : S ≤ ∑ j ∈ Finset.Ico (p + 1) lattice.length,
          (lenAt lattice j - 1) * wt lattice j := by
        have h1 : S ≤ (Q₁.map (fun q => (lenAt lattice q - 1) * wt lattice q)).sum := by
          rw [hS]
          apply List.sum_le_sum
          intro q hq
          have hqlt : q < lattice.length := hQmem q (hQ₁sub q hq)
          have hvq := hv.2 q hqlt
          have hlp := lenAt_pos lattice hne q hqlt
          apply Nat.mul_le_mul_right
          simp only [lenAt] at hlp ⊢
          omega
        have h2 : (Q₁.map (fun q => (lenAt lattice q - 1) * wt lattice q)).sum
            ≤ ∑ j ∈ Finset.Ico (p + 1) lattice.length,
                (lenAt lattice j - 1) * wt lattice j := by
          apply list_sum_le_finset _ Q₁ _ hQ₁nd
          intro q hq
          refine Finset.mem_Ico.mpr ⟨?_, hQmem q (hQ₁sub q hq)⟩
          exact hQ₁lt q hq
        omega
      have htel := telescope_sum lattice hne (lattice.length - (p + 1)) (p + 1) (by omega)
      have hwteq : ((lattice.map List.length).drop (p + 1)).prod = wt lattice p := rfl
      rw [hwteq] at htel
      have hwpos : 0 < wt lattice p := wt_pos lattice hne p
      have hSlt : S < wt lattice p := by omega
      have htonat : (cs.getD p 0 + 1).toNat = (cs.getD p 0).toNat + 1 := by omega
      rw [htonat] at hE1
      have hmul : ((cs.getD p 0).toNat + 1) * wt lattice p
          = (cs.getD p 0).toNat * wt lattice p + wt lattice p := by ring
      rw [hmul] at hE1
      rw [hincr]
      omega

theorem getD_replicate_zero : ∀ (n i : Nat),
    ((List.replicate n (0 : Int)).getD i 0) = 0 := by
  intro n
  induction n with
  | zero => intro i; simp
  | succ n ih =>
    intro i
    cases i with
    | zero => rfl
    | succ i => simp [List.replicate, ih i]

theorem initCounters_valid (lattice : Lattice) (hne : ∀ c ∈ lattice, c ≠ []) :
    ValidCs lattice (initCounters lattice) := by
  refine ⟨by simp [initCounters], ?_⟩
  intro i hi
  rw [initCounters, getD_replicate_zero]
  exact ⟨le_rfl, by exact_mod_cast lenAt_pos lattice hne i hi⟩

theorem csRank_init (lattice : Lattice) :
    csRank lattice (initCounters lattice) = 0 := by
  rw [csRank]
  apply Finset.sum_eq_zero
  intro i _
  rw [initCounters, getD_replicate_zero]
  simp

theorem enumAux_exhausted (lattice : Lattice) (fuel : Nat) (cs : List Int)
    (h : exhausted cs = true) : enumAux lattice fuel cs = [] := by
  cases fuel with
  | zero => rfl
  | succ fuel => simp [enumAux, get_result, h]

theorem runSteps_exhausted (lattice : Lattice) :
    ∀ (fuel : Nat) (cs : List Int), exhausted cs = true →
      runSteps lattice fuel cs = cs := by
  intro fuel
  induction fuel with
  | zero => intro cs _; rfl
  | succ fuel _ => intro cs h; simp [runSteps, h]

theorem enumAux_len_bound (lattice : Lattice)
    (hlen : 0 < lattice.length) (hne : ∀ c ∈ lattice, c ≠ [])
    (haddr : ∀ row ∈ lattice, ∀ nd ∈ row, nd.node_type = ADDRESS →
      1 ≤ morphLen nd.morphemes) :
    ∀ (fuel : Nat) (cs : List Int), ValidCs lattice cs →
      (enumAux lattice fuel cs).length + csRank lattice cs ≤ prodLens lattice := by
  intro fuel
  induction fuel with
  | zero =>
    intro cs hv
    have := csRank_lt_prod lattice hne cs hv
    simp only [enumAux, List.length_nil]
    omega
  | succ fuel ih =>
    intro cs hv
    have hrk := csRank_lt_prod lattice hne cs hv
    by_cases hex : exhausted cs = true
    · rw [enumAux_exhausted lattice _ cs hex]
      simp only [List.length_nil]
      omega
    · have hget : get_result lattice cs
          = some (getResultAux lattice cs lattice.length 0) := by
        simp [get_result, hex]
      simp only [enumAux, hget, List.length_cons]
      rcases increment_spec lattice hlen hne haddr cs hv with hL | ⟨hV, hR⟩
      · rw [enumAux_exhausted lattice fuel _ hL]
        simp only [List.length_nil]
        omega
      · have := ih (increment_counter lattice cs) hV
        omega

theorem runSteps_reaches_exhaustion (lattice : Lattice)
    (hlen : 0 < lattice.length) (hne : ∀ c ∈ lattice, c ≠ [])
    (haddr : ∀ row ∈ lattice, ∀ nd ∈ row, nd.node_type = ADDRESS →
      1 ≤ morphLen nd.morphemes) :
    ∀ (fuel : Nat) (cs : List Int), ValidCs lattice cs →
      prodLens lattice ≤ fuel + csRank lattice cs →
      exhausted (runSteps lattice fuel cs) = true := by
  intro fuel
  induction fuel with
  | zero =>
    intro cs hv hbound
    have := csRank_lt_prod lattice hne cs hv
    omega
  | succ fuel ih =>
    intro cs hv hbound
    by_cases hex : exhausted cs = true
    · rw [runSteps_exhausted lattice _ cs hex]
      exact hex
    · have hstep : runSteps lattice (fuel + 1) cs
          = runSteps lattice fuel (increment_counter lattice cs) := by
        simp [runSteps, hex]
      rw [hstep]
      rcases increment_spec lattice hlen hne haddr cs hv with hL | ⟨hV, hR⟩
      · rw [runSteps_exhausted lattice fuel _ hL]
        exact hL
      · exact ih _ hV (by omega)

/-- C10: for every non-empty lattice with non-empty candidate lists (and
address nodes spanning at least one morpheme, as the parser guarantees),
iterating `LinkedResults` terminates: (a) `increment_counter` either
strictly increases the counter vector in mixed radix, keeping it valid, or
sets the exhaustion flag `counters[0] = -1`; (b) the iterator emits at most
`∏ |candidates[p]|` paths, whatever step budget it is given; (c) after
`∏ |candidates[p]|` steps the exhaustion flag is set; (d) once exhausted,
every further `__next__` raises `StopIteration` (returns `none`). -/
theorem C10_enumeration_terminates (lattice : Lattice)
    (hlen : 0 < lattice.length) (hne : ∀ c ∈ lattice, c ≠ [])
    (haddr : ∀ row ∈ lattice, ∀ nd ∈ row, nd.node_type = ADDRESS →
      1 ≤ morphLen nd.morphemes) :
    (∀ cs, ValidCs lattice cs →
       exhausted (increment_counter lattice cs) = true
       ∨ (ValidCs lattice (increment_counter lattice cs)
          ∧ csRank lattice cs < csRank lattice (increment_counter lattice cs)))
    ∧ (∀ fuel, (enumAux lattice fuel (initCounters lattice)).length
        ≤ prodLens lattice)
    ∧ exhausted (runSteps lattice (prodLens lattice) (initCounters lattice)) = true
    ∧ (∀ cs, exhausted cs = true → lrNext lattice cs = none) := by
  refine ⟨?_, ?_, ?_, ?_⟩
  · intro cs hv
    exact increment_spec lattice hlen hne haddr cs hv
  · intro fuel
    have := enumAux_len_bound lattice hlen hne haddr fuel
      (initCounters lattice) (initCounters_valid lattice hne)
    rw [csRank_init] at this
    omega
  · exact runSteps_reaches_exhaustion lattice hlen hne haddr
      (prodLens lattice) (initCounters lattice)
      (initCounters_valid lattice hne)
      (by rw [csRank_init]; omega)
  · intro cs h
    simp [lrNext, get_result, h]

/-- A two-position lattice (two candidates then one). -/
def lat2 : Lattice := [[gw "a" "c1", gw "b" "c1"], [gw "c" "c2"]]

/-- C10 witness: the theorem applied to `lat2` (all hypotheses computed),
with the emission bound instantiated at a concrete step budget and the
`StopIteration` clause at a concrete exhausted counter vector. -/
theorem C10_witness :
    (enumAux lat2 5 (initCounters lat2)).length ≤ prodLens lat2
    ∧ exhausted (runSteps lat2 (prodLens lat2) (initCounters lat2)) = true
    ∧ lrNext lat2 [-1, 0] = none := by
  have h := C10_enumeration_terminates lat2 (by decide)
    (by decide) (by decide)
  exact ⟨h.2.1 5, h.2.2.1, h.2.2.2 [-1, 0] (by decide)⟩

/-! ## C6 — the too-many-combinations guard of `RankedResults.get` -/

theorem prodLens_pos (lattice : Lattice) (hne : ∀ c ∈ lattice, c ≠ []) :
    0 < prodLens lattice := by
  apply List.prod_pos
  intro x hx
  rcases List.mem_map.mp hx with ⟨c, hc, rfl⟩
  simpa [List.length_pos] using hne c hc

theorem countCombinationsAux_gt_iff (maxc : Nat) (hmax : maxc ≤ 2147483647) :
    ∀ (l : Lattice) (n : Nat), 1 ≤ n → (∀ c ∈ l, c ≠ []) →
      (maxc < countCombinationsAux n l ↔ maxc < n * prodLens l) := by
  intro l
  induction l with
  | nil =>
    intro n _ _
    simp [countCombinationsAux, prodLens]
  | cons c rest ih =>
    intro n hn hne
    have hc : 0 < c.length := by
      have := hne c (List.mem_cons_self c rest)
      simpa [List.length_pos] using this
    have hrest : 0 < prodLens rest :=
      prodLens_pos rest (fun c' hc' => hne c' (List.mem_cons_of_mem c hc'))
    have hprod : prodLens (c :: rest) = c.length * prodLens rest := by
      simp [prodLens]
    unfold countCombinationsAux
    by_cases hbig : n * c.length > 2147483647
    · simp only [if_pos hbig]
      constructor
      · intro _
        rw [hprod, ← Nat.mul_assoc]
        calc maxc ≤ 2147483647 := hmax
          _ < n * c.length := hbig
          _ ≤ n * c.length * prodLens rest := Nat.le_mul_of_pos_right _ hrest
      · intro _
        omega
    · simp only [if_neg hbig]
      rw [ih (n * c.length) (Nat.mul_pos (by omega) hc)
        (fun c' hc' => hne c' (List.mem_cons_of_mem c hc')), hprod,
        Nat.mul_assoc]

/-- C6: `RankedResults.get` raises the too-many-combinations `LinkerError`
iff the product of the candidate counts strictly exceeds
`max_combinations`, and otherwise returns the ranked result list.  The
early exit of `count_combinations` at `2^31 - 1` never changes the verdict
for any bound up to `2147483647` (which covers the default 256). -/
theorem C6_combination_guard (dist : PNode → PNode → Option ℚ)
    (options : Option Int) (maxr maxc : Nat) (lattice : Lattice)
    (hne : ∀ c ∈ lattice, c ≠ []) (hmax : maxc ≤ 2147483647) :
    ((∃ e, rr_get dist options maxr maxc lattice = Except.error e)
      ↔ maxc < prodLens lattice)
    ∧ (prodLens lattice ≤ maxc →
        rr_get dist options maxr maxc lattice
          = Except.ok (rankFold maxr (pathRecords dist options lattice))) := by
  have hiff : maxc < count_combinations lattice ↔ maxc < prodLens lattice := by
    have := countCombinationsAux_gt_iff maxc hmax lattice 1 le_rfl hne
    simpa [count_combinations] using this
  constructor
  · constructor
    · rintro ⟨e, he⟩
      by_cases h : maxc < count_combinations lattice
      · exact hiff.mp h
      · rw [rr_get] at he
        simp only [gt_iff_lt, if_neg h] at he
        exact Except.noConfusion he
    · intro h
      refine ⟨(count_combinations lattice, maxc), ?_⟩
      rw [rr_get]
      simp only [gt_iff_lt, if_pos (hiff.mpr h)]
  · intro h
    have hnot : ¬ maxc < count_combinations lattice := by
      rw [hiff]; omega
    rw [rr_get]
    simp only [gt_iff_lt, if_neg hnot]

/-- C6 witness: the guard theorem applied to the concrete two-position
lattice `lat2` with the default bound 256. -/
theorem C6_witness :
    ((∃ e, rr_get dist0 none 5 256 lat2 = Except.error e)
      ↔ 256 < prodLens lat2)
    ∧ (prodLens lat2 ≤ 256 →
        rr_get dist0 none 5 256 lat2
          = Except.ok (rankFold 5 (pathRecords dist0 none lat2))) :=
  C6_combination_guard dist0 none 5 256 lat2 (by decide) (by decide)

/-! ## C7 — order of the ranked result list -/

/-- Descending-score sortedness of a record list. -/
def RecsSorted (l : List RRecord) : Prop :=
  l.Pairwise (fun a b => b.score ≤ a.score)

theorem mem_insRecSpec (r y : RRecord) :
    ∀ l : List RRecord, y ∈ insRecSpec r l ↔ y = r ∨ y ∈ l := by
  intro l
  induction l with
  | nil => simp [insRecSpec]
  | cons x xs ih =>
    by_cases h : x.score > r.score
    · simp only [insRecSpec, if_pos h, List.mem_cons, ih]
      try tauto
    · simp only [insRecSpec, if_neg h, List.mem_cons]
      try tauto

theorem insRecSpec_sorted (r : RRecord) :
    ∀ l : List RRecord, RecsSorted l → RecsSorted (insRecSpec r l) := by
  intro l
  induction l with
  | nil => intro _; simp [insRecSpec, RecsSorted]
  | cons x xs ih =>
    intro hs
    rcases (List.pairwise_cons.mp hs) with ⟨hx, hxs⟩
    by_cases h : x.score > r.score
    · simp only [insRecSpec, if_pos h]
      refine List.Pairwise.cons ?_ (ih hxs)
      intro y hy
      rcases (mem_insRecSpec r y xs).mp hy with rfl | hy
      · omega
      · exact hx y hy
    · simp only [insRecSpec, if_neg h]
      refine List.Pairwise.cons ?_ hs
      intro y hy
      rcases List.mem_cons.mp hy with rfl | hy
      · omega
      · have := hx y hy
        omega

theorem insRecSpec_all_gt (r : RRecord) :
    ∀ l : List RRecord, (∀ x ∈ l, r.score < x.score) →
      insRecSpec r l = l ++ [r] := by
  intro l
  induction l with
  | nil => intro _; rfl
  | cons x xs ih =>
    intro h
    have hx : r.score < x.score := h x (List.mem_cons_self x xs)
    simp only [insRecSpec, if_pos hx, List.cons_append]
    rw [ih (fun y hy => h y (List.mem_cons_of_mem x hy))]

theorem insRecSpec_append_le (r z : RRecord) (hz : z.score ≤ r.score) :
    ∀ ys : List RRecord, insRecSpec r ys ++ [z] = insRecSpec r (ys ++ [z]) := by
  intro ys
  induction ys with
  | nil =>
    show [r, z] = insRecSpec r [z]
    unfold insRecSpec
    rw [if_neg (by omega : ¬ z.score > r.score)]
  | cons x xs ih =>
    show insRecSpec r (x :: xs) ++ [z] = insRecSpec r (x :: (xs ++ [z]))
    unfold insRecSpec
    by_cases h : x.score > r.score
    · rw [if_pos h, if_pos h, List.cons_append, ih]
    · rw [if_neg h, if_neg h]
      rfl

theorem getD_rec_append_lt (ys zs : List RRecord) (n : Nat) (d : RRecord)
    (h : n < ys.length) : (ys ++ zs).getD n d = ys.getD n d := by
  induction ys generalizing n with
  | nil => simp at h
  | cons x xs ih =>
    cases n with
    | zero => rfl
    | succ n => simpa using ih n (by simpa using h)

theorem getD_rec_append_length (ys : List RRecord) (z d : RRecord) :
    (ys ++ [z]).getD ys.length d = z := by
  induction ys with
  | nil => rfl
  | cons x xs ih => simp [ih]

theorem insertAt_append (ys : List RRecord) (z r : RRecord) (k : Nat)
    (h : k ≤ ys.length) :
    insertAt (ys ++ [z]) k r = insertAt ys k r ++ [z] := by
  unfold insertAt
  induction ys generalizing k with
  | nil =>
    have : k = 0 := by simpa using h
    subst this
    rfl
  | cons x xs ih =>
    cases k with
    | zero => rfl
    | succ k =>
      simp only [List.cons_append, List.take_succ_cons, List.drop_succ_cons]
      rw [ih k (by simpa using h)]
      try rfl

theorem insLoop_append (ys : List RRecord) (z r : RRecord) :
    ∀ n, n ≤ ys.length →
      insLoop (ys ++ [z]) r n = insLoop ys r n ++ [z] := by
  intro n
  induction n with
  | zero => intro _; rfl
  | succ n ih =>
    intro h
    have hn : n < ys.length := by omega
    unfold insLoop
    rw [getD_rec_append_lt ys [z] n default hn]
    by_cases hgt : (ys.getD n default).score > r.score
    · simp only [if_pos hgt]
      exact insertAt_append ys z r (n + 1) (by omega)
    · simp only [if_neg hgt]
      by_cases h0 : n = 0
      · simp only [if_pos h0]
        exact insertAt_append ys z r 0 (by omega)
      · simp only [if_neg h0]
        exact ih (by omega)

theorem insLoop_one (z r : RRecord) : insLoop [z] r 1 = insRecSpec r [z] := by
  by_cases h : z.score > r.score
  · simp [insLoop, insertAt, insRecSpec, h]
  · simp [insLoop, insertAt, insRecSpec, h]

theorem insLoop_eq_insRecSpec (r : RRecord) :
    ∀ ys : List RRecord, RecsSorted ys → ys ≠ [] →
      insLoop ys r ys.length = insRecSpec r ys := by
  intro ys
  induction ys using List.reverseRecOn with
  | nil => intro _ h; exact absurd rfl h
  | append_singleton ys z ih =>
    intro hs _
    by_cases h0 : ys = []
    · subst h0
      simpa using insLoop_one z r
    · have hlen : (ys ++ [z]).length = ys.length + 1 := by simp
      rw [hlen]
      have hylen : ∃ m, ys.length = m + 1 := by
        rcases ys with _ | ⟨y, ys'⟩
        · exact absurd rfl h0
        · exact ⟨ys'.length, by simp⟩
      rcases hylen with ⟨m, hm⟩
      have hloop : insLoop (ys ++ [z]) r (ys.length + 1)
          = if ((ys ++ [z]).getD ys.length default).score > r.score then
              insertAt (ys ++ [z]) (ys.length + 1) r
            else if ys.length = 0 then insertAt (ys ++ [z]) 0 r
            else insLoop (ys ++ [z]) r ys.length := rfl
      rw [hloop, getD_rec_append_length ys z default]
      by_cases hgt : z.score > r.score
      · rw [if_pos hgt]
        have hins : insertAt (ys ++ [z]) (ys.length + 1) r = (ys ++ [z]) ++ [r] := by
          unfold insertAt
          rw [List.take_of_length_le (by simp), List.drop_eq_nil_of_le (by simp)]
        rw [hins, insRecSpec_all_gt]
        intro x hx
        rcases List.mem_append.mp hx with hx | hx
        · have hrel := (List.pairwise_append.mp hs).2.2 x hx z (List.mem_singleton.mpr rfl)
          omega
        · rcases List.mem_singleton.mp hx with rfl
          omega
      · rw [if_neg hgt, if_neg (by omega : ¬ ys.length = 0)]
        have hz : z.score ≤ r.score := by omega
        have hsorted : RecsSorted ys := (List.pairwise_append.mp hs).1
        calc insLoop (ys ++ [z]) r ys.length
            = insLoop ys r ys.length ++ [z] := insLoop_append ys z r ys.length le_rfl
          _ = insRecSpec r ys ++ [z] := by rw [ih hsorted h0]
          _ = insRecSpec r (ys ++ [z]) := insRecSpec_append_le r z hz ys

theorem insRecSpec_take (r : RRecord) :
    ∀ (S : List RRecord) (m : Nat),
      (insRecSpec r (S.take m)).take m = (insRecSpec r S).take m := by
  intro S
  induction S with
  | nil => intro m; simp
  | cons x xs ih =>
    intro m
    cases m with
    | zero => simp
    | succ m =>
      simp only [List.take_succ_cons]
      by_cases h : x.score > r.score
      · simp only [insRecSpec, if_pos h, List.take_succ_cons, ih m]
      · simp only [insRecSpec, if_neg h, List.take_succ_cons]
        congr 1
        cases m with
        | zero => simp
        | succ m =>
          simp only [List.take_succ_cons]
          congr 1
          rw [List.take_take]
          congr 1
          omega

theorem sortRecs_append (l : List RRecord) (r : RRecord) :
    sortRecs (l ++ [r]) = insRecSpec r (sortRecs l) := by
  simp [sortRecs, List.foldl_append]

theorem sortRecs_sorted (l : List RRecord) : RecsSorted (sortRecs l) := by
  induction l using List.reverseRecOn with
  | nil => simp [sortRecs, RecsSorted]
  | append_singleton l r ih =>
    rw [sortRecs_append]
    exact insRecSpec_sorted r _ ih

theorem rankFold_eq_sortRecs (maxr : Nat) (hmaxr : 1 ≤ maxr) :
    ∀ l : List RRecord, rankFold maxr l = (sortRecs l).take maxr := by
  intro l
  induction l using List.reverseRecOn with
  | nil => simp [rankFold, sortRecs]
  | append_singleton l r ih =>
    have hfold : rankFold maxr (l ++ [r]) = addRecord maxr (rankFold maxr l) r := by
      simp [rankFold, List.foldl_append]
    rw [hfold, ih, sortRecs_append]
    set S := sortRecs l with hS
    by_cases hnil : S.take maxr = []
    · have hSnil : S = [] := by
        rcases List.take_eq_nil_iff.mp hnil with h | h
        · omega
        · exact h
      rw [hnil, hSnil]
      unfold addRecord
      simp only [List.length_nil, if_pos rfl]
      rw [insRecSpec]
      rcases Nat.exists_eq_add_of_le hmaxr with ⟨k, hk⟩
      rw [hk]
      simp [Nat.add_comm]
    · unfold addRecord
      rw [if_neg (by simpa [List.length_eq_zero] using hnil)]
      have hTs : RecsSorted (S.take maxr) := by
        have hsub : List.Sublist (S.take maxr) S := List.take_sublist maxr S
        exact List.Pairwise.sublist hsub (sortRecs_sorted l)
      rw [insLoop_eq_insRecSpec r (S.take maxr) hTs hnil]
      exact insRecSpec_take r S maxr

theorem insRecSpec_filter (r : RRecord) (s : Int) :
    ∀ S : List RRecord,
      (insRecSpec r S).filter (fun x => x.score == s)
        = if r.score = s then r :: S.filter (fun x => x.score == s)
          else S.filter (fun x => x.score == s) := by
  intro S
  induction S with
  | nil =>
    by_cases h : r.score = s
    · have hb : (r.score == s) = true := by simp [h]
      simp [insRecSpec, List.filter_cons, hb, h]
    · have hb : (r.score == s) = false := by simp [h]
      simp [insRecSpec, List.filter_cons, hb, h]
  | cons x xs ih =>
    by_cases hgt : x.score > r.score
    · simp only [insRecSpec, if_pos hgt]
      by_cases hr : r.score = s
      · have hx : (x.score == s) = false := by
          simp only [beq_eq_false_iff_ne, ne_eq]
          omega
        simp only [List.filter_cons, hx, ih, if_pos hr, Bool.false_eq_true, if_neg]
        simp [hx]
      · have hb : (r.score == s) = false := by simp [hr]
        simp [List.filter_cons, ih, hr, hb]
    · simp only [insRecSpec, if_neg hgt]
      by_cases hr : r.score = s
      · have hb : (r.score == s) = true := by simp [hr]
        simp [List.filter_cons, hb, hr]
      · have hb : (r.score == s) = false := by simp [hr]
        simp [List.filter_cons, hb, hr]

theorem sortRecs_filter (s : Int) :
    ∀ l : List RRecord,
      (sortRecs l).filter (fun x => x.score == s)
        = (l.filter (fun x => x.score == s)).reverse := by
  intro l
  induction l using List.reverseRecOn with
  | nil => simp [sortRecs]
  | append_singleton l r ih =>
    rw [sortRecs_append, insRecSpec_filter]
    by_cases hr : r.score = s
    · simp only [if_pos hr, ih, List.filter_append, List.reverse_append]
      simp [hr]
    · simp only [if_neg hr, ih, List.filter_append, List.reverse_append]
      simp [hr]

/-- C7 counterexample: a one-position lattice with two distinct geoword
candidates of equal score.  The enumeration order is `[g_a]` then `[g_b]`,
but `RankedResults.get` returns the `g_b` record *before* the `g_a`
record: the insertion loop places a new record in front of existing
equal-score records, so ties appear in reverse encounter order, not in
encounter order as claimed. -/
theorem C7_counterexample :
    rr_get dist0 none 5 256 [[gw "a" "c1", gw "b" "c1"]]
      = Except.ok [{ score := 0, result := [gw "b" "c1"] },
                   { score := 0, result := [gw "a" "c1"] }]
    ∧ pathRecords dist0 none [[gw "a" "c1", gw "b" "c1"]]
      = [{ score := 0, result := [gw "a" "c1"] },
         { score := 0, result := [gw "b" "c1"] }]
    ∧ gw "a" "c1" ≠ gw "b" "c1" := by
  refine ⟨by decide, by decide, by decide⟩

/-- C7 amended: `RankedResults.get` returns at most `max_results` records
(for `max_results ≥ 1`) sorted by descending score, and among records of
equal score the surviving ones appear in *reverse* encounter order (each
new record is inserted before the existing records of equal score, and
truncation drops the earliest-enumerated ties): for every score `s`, the
score-`s` records of the output are the initial segment of the *reversed*
emission-ordered score-`s` records. -/
theorem C7_amended (dist : PNode → PNode → Option ℚ) (options : Option Int)
    (maxr maxc : Nat) (lattice : Lattice) (recs : List RRecord)
    (hmaxr : 1 ≤ maxr)
    (hok : rr_get dist options maxr maxc lattice = Except.ok recs) :
    recs.length ≤ maxr
    ∧ recs.Pairwise (fun a b => b.score ≤ a.score)
    ∧ ∀ s : Int, recs.filter (fun x => x.score == s)
        = (((pathRecords dist options lattice).filter
              (fun x => x.score == s)).reverse).take
            (recs.filter (fun x => x.score == s)).length := by
  have hrecs : recs = rankFold maxr (pathRecords dist options lattice) := by
    rw [rr_get] at hok
    by_cases h : count_combinations lattice > maxc
    · simp only [if_pos h] at hok
      exact Except.noConfusion hok
    · simp only [if_neg h] at hok
      exact (Except.ok.injEq _ _ ▸ hok).symm
  set L := pathRecords dist options lattice with hL
  rw [hrecs, rankFold_eq_sortRecs maxr hmaxr L]
  refine ⟨List.length_take_le _ _, ?_, ?_⟩
  · exact List.Pairwise.sublist (List.take_sublist maxr _) (sortRecs_sorted L)
  · intro s
    have hpre : ((sortRecs L).take maxr).filter (fun x => x.score == s)
        <+: (sortRecs L).filter (fun x => x.score == s) := by
      exact List.IsPrefix.filter _ (List.take_prefix maxr (sortRecs L))
    rw [← sortRecs_filter s L]
    exact List.prefix_iff_eq_take.mp hpre

/-- C7 witness: the amended theorem applied to the concrete tie lattice of
the counterexample, with every hypothesis evaluated. -/
theorem C7_amended_witness :
    ([{ score := 0, result := [gw "b" "c1"] },
      { score := 0, result := [gw "a" "c1"] }] : List RRecord).length ≤ 5
    ∧ ([{ score := 0, result := [gw "b" "c1"] },
        { score := 0, result := [gw "a" "c1"] }] : List RRecord).Pairwise
        (fun a b => b.score ≤ a.score)
    ∧ ∀ s : Int, ([{ score := 0, result := [gw "b" "c1"] },
        { score := 0, result := [gw "a" "c1"] }] : List RRecord).filter
          (fun x => x.score == s)
        = (((pathRecords dist0 none [[gw "a" "c1", gw "b" "c1"]]).filter
              (fun x => x.score == s)).reverse).take
            (([{ score := 0, result := [gw "b" "c1"] },
               { score := 0, result := [gw "a" "c1"] }] : List RRecord).filter
              (fun x => x.score == s)).length :=
  C7_amended dist0 none 5 256 [[gw "a" "c1", gw "b" "c1"]]
    [{ score := 0, result := [gw "b" "c1"] },
     { score := 0, result := [gw "a" "c1"] }]
    (by omega) (by decide)

end PyGeoNLP
